import Mathlib

/-
Verification of the dag-crr-research sync engine core.

The definitions below are a shallow embedding of the Rust sources:
  sync-engine/src/merge.rs      (TieBreakPolicy, MergeReport, resolve_versions, resolve_conflict)
  sync-engine/src/storage/memory.rs  (MemoryStorage: cells + per-column DAG histories)
  sync-engine/src/storage/sqlite.rs  (the pure decision logic of gc_dag)
  sync-engine/src/table.rs      (CrrTable::merge, changeset, gc)
  sync-engine/src/row.rs        (InsertBuilder::commit, UpdateBuilder::commit)
  sync-engine/src/sync.rs       (Changeset, HeadExchange::from_table, SyncSession::sync)

Modelling conventions:
  - Byte strings are `List Nat`; Rust's lexicographic slice order becomes `bytesLt`.
  - Rust HashMaps are association lists; `alGet` is lookup (first match) and
    `alPut` is insert-or-replace, mirroring HashMap::insert / entry().or_insert.
    HashMap key sets are duplicate-free, which appears as Nodup hypotheses.
  - Fallible paths are explicit: a Rust panic (the `unwrap` of a missing local
    value in CrrTable::merge, the out-of-bounds index in SqliteStorage::gc_dag)
    is `none`.  `CrrTable::merge` returns the storage state it had reached
    together with `Option MergeReport`, because the storage outlives the call:
    after a panic or early return the mutations already performed remain.
  - The wall clock (now_millis) is an explicit `now : Nat` parameter.
  - MemoryStorage's column interner and value pool are observationally
    transparent (they only dedup backing buffers), so cells and DAG nodes are
    stored directly.
-/

namespace DagCrr

/-- Byte sequences (Rust `Vec<u8>` / `&[u8]`), one `Nat` per byte. -/
abbrev Bytes := List Nat

/-- storage/mod.rs `Cell`: an opaque value plus its version. -/
structure Cell where
  value : Bytes
  version : Nat
  deriving DecidableEq

/-- storage/mod.rs `DagNode`: one history record of a column. -/
structure DagNode where
  version : Nat
  value : Bytes
  parent_version : Option Nat
  parent2_version : Option Nat
  timestamp : Nat
  is_tombstone : Bool
  deriving DecidableEq

/-- Association-list lookup: value of the first entry with the given key
(models `HashMap::get`). -/
def alGet {α : Type} (l : List (String × α)) (k : String) : Option α :=
  match l with
  | [] => none
  | e :: rest => if e.1 = k then some e.2 else alGet rest k

/-- Association-list insert-or-replace (models `HashMap::insert` and
`entry(k).or_insert`): replaces the first entry with the key, else appends. -/
def alPut {α : Type} (l : List (String × α)) (k : String) (v : α) : List (String × α) :=
  match l with
  | [] => [(k, v)]
  | e :: rest => if e.1 = k then (k, v) :: rest else e :: alPut rest k v

@[simp] theorem alGet_nil {α : Type} (k : String) : alGet ([] : List (String × α)) k = none := rfl

theorem alGet_alPut_self {α : Type} (l : List (String × α)) (k : String) (v : α) :
    alGet (alPut l k v) k = some v := by
  induction l with
  | nil => simp [alPut, alGet]
  | cons e rest ih =>
    by_cases h : e.1 = k
    · simp [alPut, alGet, h]
    · simp [alPut, alGet, h, ih]

theorem alGet_alPut_ne {α : Type} (l : List (String × α)) (k k' : String) (v : α)
    (h : k' ≠ k) : alGet (alPut l k v) k' = alGet l k' := by
  have hne : ¬ k = k' := fun hh => h hh.symm
  induction l with
  | nil => simp [alPut, alGet, hne]
  | cons e rest ih =>
    by_cases he : e.1 = k
    · simp [alPut, alGet, he, hne]
    · simp [alPut, alGet, he, ih]

/-- memory.rs `RowData`: per-row cells and per-column DAG histories. -/
structure RowData where
  cells : List (String × Cell)
  dag : List (String × List DagNode)
  deriving DecidableEq

/-- memory.rs `RowData::new`. -/
def RowData.empty : RowData := ⟨[], []⟩

/-- memory.rs `MemoryStorage` (interner and value pool elided: they are
observationally transparent). -/
structure MemoryStorage where
  rows : List (String × RowData)
  deriving DecidableEq

/-- memory.rs `MemoryStorage::new`. -/
def MemoryStorage.new : MemoryStorage := ⟨[]⟩

namespace MemoryStorage

/-- memory.rs `get_cell`. -/
def get_cell (s : MemoryStorage) (pk col : String) : Option Cell :=
  match alGet s.rows pk with
  | none => none
  | some rd => alGet rd.cells col

/-- memory.rs `set_cell`: `rows.entry(pk).or_insert(RowData::new)` then
`row.cells.insert(col, cell)`. -/
def set_cell (s : MemoryStorage) (pk col : String) (c : Cell) : MemoryStorage :=
  let rd := (alGet s.rows pk).getD RowData.empty
  ⟨alPut s.rows pk { rd with cells := alPut rd.cells col c }⟩

/-- memory.rs `get_row`: all cells of a pk, `none` when the row is absent or
has no cells. -/
def get_row (s : MemoryStorage) (pk : String) : Option (List (String × Cell)) :=
  match alGet s.rows pk with
  | none => none
  | some rd => if rd.cells.isEmpty then none else some rd.cells

/-- Total order on pks used to model `Vec<String>::sort()`: lexicographic by
character, matching `Ord for String` in Rust. -/
def strLe (a b : String) : Bool := a == b || decide (a.data < b.data)

/-- Insertion sort used to model the `pks.sort()` in memory.rs `all_pks`. -/
def sortInsert (x : String) : List String → List String
  | [] => [x]
  | y :: ys => if strLe x y then x :: y :: ys else y :: sortInsert x ys

/-- Sort a list of pks ascending (memory.rs `all_pks` sorts its keys). -/
def sortPks : List String → List String
  | [] => []
  | x :: xs => sortInsert x (sortPks xs)

/-- memory.rs `all_pks`: the row keys, sorted. -/
def all_pks (s : MemoryStorage) : List String :=
  sortPks (s.rows.map Prod.fst)

/-- memory.rs `append_dag_node`: push the node at the end of the (pk, col)
history, creating row and history on demand. -/
def append_dag_node (s : MemoryStorage) (pk col : String) (n : DagNode) : MemoryStorage :=
  let rd := (alGet s.rows pk).getD RowData.empty
  ⟨alPut s.rows pk
    { rd with dag := alPut rd.dag col (((alGet rd.dag col).getD []) ++ [n]) }⟩

/-- memory.rs `get_dag_history`: the stored history, `[]` when absent. -/
def get_dag_history (s : MemoryStorage) (pk col : String) : List DagNode :=
  match alGet s.rows pk with
  | none => []
  | some rd => (alGet rd.dag col).getD []

/-- memory.rs `gc_dag`: when the history is longer than `keep`, drain the
oldest `len - keep` nodes from the front and report how many were removed. -/
def gc_dag (s : MemoryStorage) (pk col : String) (keep : Nat) : MemoryStorage × Nat :=
  match alGet s.rows pk with
  | none => (s, 0)
  | some rd =>
    match alGet rd.dag col with
    | none => (s, 0)
    | some hist =>
      if hist.length ≤ keep then (s, 0)
      else
        let removed := hist.length - keep
        (⟨alPut s.rows pk { rd with dag := alPut rd.dag col (hist.drop removed) }⟩, removed)

/-- memory.rs `begin_transaction` is a no-op. -/
def begin_transaction (s : MemoryStorage) : MemoryStorage := s

/-- memory.rs `commit_transaction` is a no-op. -/
def commit_transaction (s : MemoryStorage) : MemoryStorage := s

/-- memory.rs `rollback_transaction` is a no-op. -/
def rollback_transaction (s : MemoryStorage) : MemoryStorage := s

end MemoryStorage

/-- merge.rs `TieBreakPolicy`. -/
inductive TieBreakPolicy where
  | PreferExisting
  | PreferIncoming
  | LexicographicMin
  deriving DecidableEq

/-- merge.rs `MergeReport`. -/
structure MergeReport where
  inserted : Nat
  updated : Nat
  skipped : Nat
  conflicts : Nat
  deriving DecidableEq

/-- merge.rs `MergeReport::default()`. -/
def MergeReport.init : MergeReport := ⟨0, 0, 0, 0⟩

/-- merge.rs `MergeDecision`. -/
inductive MergeDecision where
  | Accept
  | Reject
  | Conflict
  deriving DecidableEq

/-- merge.rs `resolve_versions`: match on `local_version.cmp(&remote_version)`. -/
def resolve_versions (local_version remote_version : Nat) : MergeDecision :=
  if local_version < remote_version then .Accept
  else if remote_version < local_version then .Reject
  else .Conflict

/-- Rust's lexicographic order on byte slices (`&[u8] < &[u8]`): compare
pointwise, a strict prefix is smaller. -/
def bytesLt : Bytes → Bytes → Bool
  | [], [] => false
  | [], _ :: _ => true
  | _ :: _, [] => false
  | a :: as, b :: bs => if a < b then true else if b < a then false else bytesLt as bs

/-- merge.rs `resolve_conflict`: whether the remote value wins the tiebreak. -/
def resolve_conflict (local_value remote_value : Bytes) (policy : TieBreakPolicy) : Bool :=
  match policy with
  | .PreferExisting => false
  | .PreferIncoming => true
  | .LexicographicMin => bytesLt remote_value local_value

/-- sync.rs `Changeset`: `{pk -> (cols: {col -> bytes}, vers: {col -> version})}`. -/
structure Changeset where
  changes : List (String × (List (String × Bytes) × List (String × Nat)))
  deriving DecidableEq

/-- The per-cell work list of `CrrTable::merge`: the two nested loops of
table.rs visit, for each pk entry, each `(col, remote_value)` of its value
map paired with `remote_versions.get(col).unwrap_or(&1)`. -/
def Changeset.cells (cs : Changeset) : List (String × String × Bytes × Nat) :=
  cs.changes.flatMap
    (fun e => e.2.1.map (fun ce => (e.1, ce.1, ce.2, (alGet e.2.2 ce.1).getD 1)))

/-- The local version used by table.rs merge: the stored cell's version, 0 when
the cell is absent. -/
def localVersionOf (s : MemoryStorage) (pk col : String) : Nat :=
  match s.get_cell pk col with
  | some c => c.version
  | none => 0

/-- The loop body of table.rs `CrrTable::merge` for one `(pk, col)` cell of the
changeset.  `none` is the panic of `local_value.as_ref().unwrap()` when the
versions tie at 0 with no local cell. -/
def mergeCell (s : MemoryStorage) (rep : MergeReport) (pk col : String)
    (remote_value : Bytes) (remote_version : Nat) (policy : TieBreakPolicy)
    (now : Nat) : Option (MemoryStorage × MergeReport) :=
  let local_cell := s.get_cell pk col
  let local_version := localVersionOf s pk col
  match resolve_versions local_version remote_version with
  | .Accept =>
    let s1 := s.set_cell pk col ⟨remote_value, remote_version⟩
    let node : DagNode :=
      ⟨remote_version, remote_value,
        if local_version > 0 then some local_version else none, none, now, false⟩
    let s2 := s1.append_dag_node pk col node
    if local_version = 0 then
      some (s2, { rep with inserted := rep.inserted + 1 })
    else
      some (s2, { rep with updated := rep.updated + 1 })
  | .Reject => some (s, { rep with skipped := rep.skipped + 1 })
  | .Conflict =>
    match local_cell with
    | none => none
    | some lc =>
      if lc.value = remote_value then
        some (s, { rep with skipped := rep.skipped + 1 })
      else
        let rep1 := { rep with conflicts := rep.conflicts + 1 }
        if resolve_conflict lc.value remote_value policy then
          let new_version := remote_version + 1
          let s1 := s.set_cell pk col ⟨remote_value, new_version⟩
          let node : DagNode :=
            ⟨new_version, remote_value, some local_version, some remote_version, now, false⟩
          let s2 := s1.append_dag_node pk col node
          some (s2, { rep1 with updated := rep1.updated + 1 })
        else
          some (s, rep1)

/-- The merge loop over the flattened cell list; on a panic the storage keeps
every mutation already performed (it outlives the call). -/
def mergeCells (s : MemoryStorage) (rep : MergeReport) (policy : TieBreakPolicy)
    (now : Nat) : List (String × String × Bytes × Nat) → MemoryStorage × Option MergeReport
  | [] => (s, some rep)
  | (pk, col, v, ver) :: rest =>
    match mergeCell s rep pk col v ver policy now with
    | none => (s, none)
    | some (s', rep') => mergeCells s' rep' policy now rest

/-- table.rs `CrrTable::merge`: begin a transaction (a no-op on MemoryStorage),
fold the per-cell resolution over the changeset, commit (also a no-op).  The
second component is `none` when the merge panics; the first component is the
storage as the caller sees it afterwards. -/
def merge (s : MemoryStorage) (cs : Changeset) (policy : TieBreakPolicy)
    (now : Nat) : MemoryStorage × Option MergeReport :=
  let s0 := s.begin_transaction
  let r := mergeCells s0 MergeReport.init policy now cs.cells
  match r.2 with
  | none => r
  | some rep => (r.1.commit_transaction, some rep)

/-- table.rs `CrrTable::changeset`: for every pk (in `all_pks` order) with a
non-empty row, export the value map and the version map of its cells. -/
def changesetOf (s : MemoryStorage) : Changeset :=
  ⟨(s.all_pks).filterMap (fun pk =>
    match s.get_row pk with
    | none => none
    | some cells =>
      some (pk, (cells.map (fun e => (e.1, e.2.value)),
                 cells.map (fun e => (e.1, e.2.version)))))⟩

/-- The loop body of row.rs `InsertBuilder::commit` for one staged column: the
cell is written at the caller-supplied version; the DAG node's parent is the
previous version when positive. -/
def insertStep (s : MemoryStorage) (pk col : String) (value : Bytes)
    (version : Nat) (now : Nat) : MemoryStorage :=
  let current_version := localVersionOf s pk col
  let s1 := s.set_cell pk col ⟨value, version⟩
  s1.append_dag_node pk col
    ⟨version, value, if current_version > 0 then some current_version else none,
     none, now, false⟩

/-- row.rs `InsertBuilder::commit` over the staged columns. -/
def insertCommit (s : MemoryStorage) (pk : String)
    (cols : List (String × Bytes × Nat)) (now : Nat) : MemoryStorage :=
  cols.foldl (fun acc e => insertStep acc pk e.1 e.2.1 e.2.2 now) s

/-- The loop body of row.rs `UpdateBuilder::commit` for one staged column:
`new_version = current.map(|c| c.version + 1).unwrap_or(1)`, parent is the
current cell's version when the cell exists. -/
def updateStep (s : MemoryStorage) (pk col : String) (value : Bytes)
    (now : Nat) : MemoryStorage :=
  let current := s.get_cell pk col
  let new_version := match current with
    | some c => c.version + 1
    | none => 1
  let parent := current.map Cell.version
  let s1 := s.set_cell pk col ⟨value, new_version⟩
  s1.append_dag_node pk col ⟨new_version, value, parent, none, now, false⟩

/-- row.rs `UpdateBuilder::commit` over the staged columns. -/
def updateCommit (s : MemoryStorage) (pk : String)
    (cols : List (String × Bytes)) (now : Nat) : MemoryStorage :=
  cols.foldl (fun acc e => updateStep acc pk e.1 e.2 now) s

/-- The inner loop of table.rs `CrrTable::gc`: run `gc_dag` on every column of
the row, accumulating the removal count. -/
def gcRow (pk : String) (keep : Nat) :
    List (String × Cell) → MemoryStorage × Nat → MemoryStorage × Nat
  | [], acc => acc
  | ce :: rest, acc =>
    let r := acc.1.gc_dag pk ce.1 keep
    gcRow pk keep rest (r.1, acc.2 + r.2)

/-- The outer loop of table.rs `CrrTable::gc` over the pk list. -/
def gcPks (keep : Nat) : List String → MemoryStorage × Nat → MemoryStorage × Nat
  | [], acc => acc
  | pk :: rest, acc =>
    gcPks keep rest
      (match acc.1.get_row pk with
       | none => acc
       | some cells => gcRow pk keep cells acc)

/-- table.rs `CrrTable::gc`: for every pk of `all_pks` whose row is non-empty,
run `gc_dag` on every column that has a cell, accumulating the removal count. -/
def tableGc (s : MemoryStorage) (keep : Nat) : MemoryStorage × Nat :=
  gcPks keep s.all_pks (s, 0)

/-- Modelled decision logic of sqlite.rs `SqliteStorage::gc_dag` on the history
it reads back ordered by version: when the history is longer than `keep` it
indexes `history[history.len() - keep]` — `none` is the out-of-bounds panic —
and deletes every node with a strictly smaller version, returning the count. -/
def sqlite_gc_dag_count (history : List DagNode) (keep : Nat) : Option Nat :=
  if history.length ≤ keep then some 0
  else
    match history.get? (history.length - keep) with
    | none => none
    | some node => some ((history.filter (fun n => n.version < node.version)).length)

/-- sync.rs `HeadExchange::from_table`: for every pk with a row, the per-column
version vector. -/
def headsOf (s : MemoryStorage) : List (String × List (String × Nat)) :=
  (s.all_pks).filterMap (fun pk =>
    match s.get_row pk with
    | none => none
    | some cells => some (pk, cells.map (fun e => (e.1, e.2.version))))

/-- The version a peer advertises for `(pk, col)` in the head exchange. -/
def headVersion (s : MemoryStorage) (pk col : String) : Option Nat :=
  match alGet (headsOf s) pk with
  | none => none
  | some m => alGet m col

/-- sync.rs `SyncSession::sync`: both peers export their full changesets, then
each merges the other's (A merges B's first).  `none` when a merge panics. -/
def syncSession (a b : MemoryStorage) (policy : TieBreakPolicy) (now : Nat) :
    Option (MemoryStorage × MemoryStorage × MergeReport × MergeReport) :=
  let csA := changesetOf a
  let csB := changesetOf b
  let ra := merge a csB policy now
  match ra.2 with
  | none => none
  | some repA =>
    let rb := merge b csA policy now
    match rb.2 with
    | none => none
    | some repB => some (ra.1, rb.1, repA, repB)

/-- The key of one flattened changeset cell: the `(pk, col)` address. -/
def cellKey (e : String × String × Bytes × Nat) : String × String := (e.1, e.2.1)

/-- The `(pk, col)` addresses of a flattened changeset are pairwise distinct;
this is automatic for changesets built from Rust HashMaps. -/
def keysNodup (L : List (String × String × Bytes × Nat)) : Prop :=
  (L.map cellKey).Nodup

instance keysNodupDecidable (L : List (String × String × Bytes × Nat)) :
    Decidable (keysNodup L) :=
  inferInstanceAs (Decidable (L.map cellKey).Nodup)

/-- Well-formedness of a storage state as built by the Rust code: row keys and
per-row cell column names are pairwise distinct (they live in HashMaps). -/
def WF (s : MemoryStorage) : Prop :=
  (s.rows.map Prod.fst).Nodup ∧ ∀ e ∈ s.rows, (e.2.cells.map Prod.fst).Nodup

instance wfDecidable (s : MemoryStorage) : Decidable (WF s) :=
  inferInstanceAs (Decidable (_ ∧ _))

/-- Every stored cell carries a positive version (version 0 means "absent" in
the spec's data model). -/
def Versioned (s : MemoryStorage) : Prop :=
  ∀ e ∈ s.rows, ∀ ce ∈ e.2.cells, 1 ≤ ce.2.version

instance versionedDecidable (s : MemoryStorage) : Decidable (Versioned s) :=
  inferInstanceAs (Decidable (∀ e ∈ _, ∀ ce ∈ _, _))

/-- A changeset cell is settled in a storage state when the stored cell at its
address dominates it: the stored version exceeds the remote one, or they are
equal with equal values, or they are equal and the tiebreak keeps the local
value.  Reprocessing a settled cell never writes. -/
def settled (s : MemoryStorage) (pol : TieBreakPolicy)
    (e : String × String × Bytes × Nat) : Prop :=
  ∃ c, s.get_cell e.1 e.2.1 = some c ∧
    (e.2.2.2 < c.version ∨
     (c.version = e.2.2.2 ∧ c.value = e.2.2.1) ∨
     (c.version = e.2.2.2 ∧ resolve_conflict c.value e.2.2.1 pol = false))

/-! Concrete states and changesets used by counterexamples and witnesses.
All storage states are built through the public builder path. -/

def exC1s : MemoryStorage := insertCommit MemoryStorage.new "r" [("a", [2], 2)] 0

def exC1cs : Changeset := ⟨[("r", ([("c", [65])], [("c", 0)]))]⟩

def exC2s : MemoryStorage := insertCommit MemoryStorage.new "r" [("a", [5], 2)] 0

def exC3cs : Changeset := ⟨[("r", ([("a", [1]), ("b", [2])], [("a", 1), ("b", 0)]))]⟩

def exC4a : MemoryStorage := insertCommit MemoryStorage.new "r" [("c", [65], 1)] 0

def exC4b : MemoryStorage := insertCommit MemoryStorage.new "r" [("c", [66], 1)] 0

def exC5s : MemoryStorage := insertCommit MemoryStorage.new "r" [("a", [3], 1)] 0

def exC5cs : Changeset := ⟨[("r", ([("a", [1]), ("b", [9])], [("a", 1), ("b", 2)]))]⟩

def exC6T : MemoryStorage :=
  insertCommit (insertCommit MemoryStorage.new "r" [("a", [1], 1), ("b", [2], 3)] 0)
    "q" [("a", [7], 2)] 0

def exC6T0 : MemoryStorage := insertCommit MemoryStorage.new "r" [("c", [65], 0)] 0

def exC7s : MemoryStorage :=
  insertCommit (insertCommit (insertCommit MemoryStorage.new "r" [("c", [1], 1)] 0)
    "r" [("c", [2], 2)] 0) "r" [("c", [3], 3)] 0

def exC8s : MemoryStorage := insertCommit MemoryStorage.new "r" [("c", [65], 1)] 0

def exC9s : MemoryStorage := insertCommit MemoryStorage.new "r" [("c", [65], 7)] 0

def exC10s : MemoryStorage := insertCommit MemoryStorage.new "r" [("a", [4], 1)] 0

def exC10cs : Changeset := ⟨[("r", ([("c", [8])], []))]⟩

/-! Association-list lemmas. -/

theorem alGet_eq_some_mem {α : Type} {l : List (String × α)} {k : String} {x : α}
    (h : alGet l k = some x) : (k, x) ∈ l := by
  induction l with
  | nil => simp [alGet] at h
  | cons e rest ih =>
    by_cases he : e.1 = k
    · simp only [alGet, he, if_pos] at h
      cases h
      have : (k, e.2) = e := by
        rw [← he]
      rw [this]
      exact List.mem_cons_self e rest
    · simp only [alGet, he, if_neg, not_false_iff] at h
      exact List.mem_cons_of_mem _ (ih h)

theorem mem_keys_of_alGet {α : Type} {l : List (String × α)} {k : String} {x : α}
    (h : alGet l k = some x) : k ∈ l.map Prod.fst := by
  have := alGet_eq_some_mem h
  exact List.mem_map.2 ⟨(k, x), this, rfl⟩

theorem alGet_of_mem_nodup {α : Type} {l : List (String × α)}
    (hnd : (l.map Prod.fst).Nodup) {k : String} {x : α}
    (hm : (k, x) ∈ l) : alGet l k = some x := by
  induction l with
  | nil => cases hm
  | cons e rest ih =>
    rcases List.mem_cons.1 hm with h | h
    · subst h
      simp [alGet]
    · have hk : k ∈ rest.map Prod.fst := List.mem_map.2 ⟨(k, x), h, rfl⟩
      have he : ¬ e.1 = k := by
        intro hek
        have := (List.nodup_cons.1 hnd).1
        rw [hek] at this
        exact this hk
      simp only [alGet, he, if_neg, not_false_iff]
      exact ih (List.nodup_cons.1 hnd).2 h

theorem alGet_map_pair {α β : Type} (f : α → β) (l : List (String × α)) (k : String) :
    alGet (l.map (fun e => (e.1, f e.2))) k = (alGet l k).map f := by
  induction l with
  | nil => simp [alGet]
  | cons e rest ih =>
    by_cases he : e.1 = k
    · simp [alGet, he]
    · simp [alGet, he, ih]


/-! Pointwise behaviour of the MemoryStorage operations. -/

namespace MemoryStorage

theorem get_cell_new (pk col : String) : MemoryStorage.new.get_cell pk col = none := rfl

theorem get_cell_set_cell_self (s : MemoryStorage) (pk col : String) (c : Cell) :
    (s.set_cell pk col c).get_cell pk col = some c := by
  simp [get_cell, set_cell, alGet_alPut_self]

theorem get_cell_set_cell_ne (s : MemoryStorage) (pk col : String) (c : Cell)
    (pk' col' : String) (h : (pk', col') ≠ (pk, col)) :
    (s.set_cell pk col c).get_cell pk' col' = s.get_cell pk' col' := by
  by_cases hpk : pk' = pk
  · subst hpk
    have hcol : col' ≠ col := by
      intro hc
      exact h (by rw [hc])
    cases hget : alGet s.rows pk' with
    | none =>
      simp [get_cell, set_cell, hget, alGet_alPut_self, alGet_alPut_ne _ _ _ _ hcol,
        RowData.empty]
    | some rd =>
      simp [get_cell, set_cell, hget, alGet_alPut_self, alGet_alPut_ne _ _ _ _ hcol]
  · simp [get_cell, set_cell, alGet_alPut_ne _ _ _ _ hpk]

theorem get_cell_append_dag (s : MemoryStorage) (pk col : String) (n : DagNode)
    (pk' col' : String) :
    (s.append_dag_node pk col n).get_cell pk' col' = s.get_cell pk' col' := by
  by_cases hpk : pk' = pk
  · subst hpk
    cases hget : alGet s.rows pk' with
    | none => simp [get_cell, append_dag_node, hget, alGet_alPut_self, RowData.empty]
    | some rd => simp [get_cell, append_dag_node, hget, alGet_alPut_self]
  · simp [get_cell, append_dag_node, alGet_alPut_ne _ _ _ _ hpk]

theorem get_dag_history_set_cell (s : MemoryStorage) (pk col : String) (c : Cell)
    (pk' col' : String) :
    (s.set_cell pk col c).get_dag_history pk' col' = s.get_dag_history pk' col' := by
  by_cases hpk : pk' = pk
  · subst hpk
    cases hget : alGet s.rows pk' with
    | none => simp [get_dag_history, set_cell, hget, alGet_alPut_self, RowData.empty]
    | some rd => simp [get_dag_history, set_cell, hget, alGet_alPut_self]
  · simp [get_dag_history, set_cell, alGet_alPut_ne _ _ _ _ hpk]

theorem get_dag_history_append_self (s : MemoryStorage) (pk col : String) (n : DagNode) :
    (s.append_dag_node pk col n).get_dag_history pk col = s.get_dag_history pk col ++ [n] := by
  cases hget : alGet s.rows pk with
  | none =>
    simp [get_dag_history, append_dag_node, hget, alGet_alPut_self, RowData.empty]
  | some rd =>
    simp [get_dag_history, append_dag_node, hget, alGet_alPut_self]

theorem get_dag_history_append_ne (s : MemoryStorage) (pk col : String) (n : DagNode)
    (pk' col' : String) (h : (pk', col') ≠ (pk, col)) :
    (s.append_dag_node pk col n).get_dag_history pk' col' = s.get_dag_history pk' col' := by
  by_cases hpk : pk' = pk
  · subst hpk
    have hcol : col' ≠ col := by
      intro hc
      exact h (by rw [hc])
    cases hget : alGet s.rows pk' with
    | none =>
      simp [get_dag_history, append_dag_node, hget, alGet_alPut_self,
        alGet_alPut_ne _ _ _ _ hcol, RowData.empty]
    | some rd =>
      simp [get_dag_history, append_dag_node, hget, alGet_alPut_self,
        alGet_alPut_ne _ _ _ _ hcol]
  · simp [get_dag_history, append_dag_node, alGet_alPut_ne _ _ _ _ hpk]

theorem gc_dag_get_cell (s : MemoryStorage) (pk col : String) (k : Nat)
    (pk' col' : String) :
    (s.gc_dag pk col k).1.get_cell pk' col' = s.get_cell pk' col' := by
  cases hget : alGet s.rows pk with
  | none => simp [gc_dag, hget]
  | some rd =>
    cases hdag : alGet rd.dag col with
    | none => simp [gc_dag, hget, hdag]
    | some hist =>
      by_cases hlen : hist.length ≤ k
      · simp [gc_dag, hget, hdag, hlen]
      · by_cases hpk : pk' = pk
        · subst hpk
          simp [gc_dag, hget, hdag, hlen, get_cell, alGet_alPut_self]
        · simp [gc_dag, hget, hdag, hlen, get_cell, alGet_alPut_ne _ _ _ _ hpk]

theorem gc_dag_get_row (s : MemoryStorage) (pk col : String) (k : Nat) (pk' : String) :
    (s.gc_dag pk col k).1.get_row pk' = s.get_row pk' := by
  cases hget : alGet s.rows pk with
  | none => simp [gc_dag, hget]
  | some rd =>
    cases hdag : alGet rd.dag col with
    | none => simp [gc_dag, hget, hdag]
    | some hist =>
      by_cases hlen : hist.length ≤ k
      · simp [gc_dag, hget, hdag, hlen]
      · by_cases hpk : pk' = pk
        · subst hpk
          simp [gc_dag, hget, hdag, hlen, get_row, alGet_alPut_self]
        · simp [gc_dag, hget, hdag, hlen, get_row, alGet_alPut_ne _ _ _ _ hpk]

theorem gc_dag_hist_self (s : MemoryStorage) (pk col : String) (k : Nat) :
    (s.gc_dag pk col k).1.get_dag_history pk col =
      (s.get_dag_history pk col).drop ((s.get_dag_history pk col).length - k) := by
  cases hget : alGet s.rows pk with
  | none => simp [gc_dag, hget, get_dag_history]
  | some rd =>
    cases hdag : alGet rd.dag col with
    | none => simp [gc_dag, hget, hdag, get_dag_history]
    | some hist =>
      by_cases hlen : hist.length ≤ k
      · have hz : hist.length - k = 0 := Nat.sub_eq_zero_of_le hlen
        simp [gc_dag, hget, hdag, hlen, get_dag_history, hz]
      · simp [gc_dag, hget, hdag, hlen, get_dag_history, alGet_alPut_self]

theorem gc_dag_hist_ne (s : MemoryStorage) (pk col : String) (k : Nat)
    (pk' col' : String) (h : (pk', col') ≠ (pk, col)) :
    (s.gc_dag pk col k).1.get_dag_history pk' col' = s.get_dag_history pk' col' := by
  cases hget : alGet s.rows pk with
  | none => simp [gc_dag, hget]
  | some rd =>
    cases hdag : alGet rd.dag col with
    | none => simp [gc_dag, hget, hdag]
    | some hist =>
      by_cases hlen : hist.length ≤ k
      · simp [gc_dag, hget, hdag, hlen]
      · by_cases hpk : pk' = pk
        · subst hpk
          have hcol : col' ≠ col := by
            intro hc
            exact h (by rw [hc])
          simp [gc_dag, hget, hdag, hlen, get_dag_history, alGet_alPut_self,
            alGet_alPut_ne _ _ _ _ hcol]
        · simp [gc_dag, hget, hdag, hlen, get_dag_history, alGet_alPut_ne _ _ _ _ hpk]

end MemoryStorage

/-! Characterisation of the per-cell merge step. -/

theorem resolve_versions_lt {l r : Nat} (h : l < r) : resolve_versions l r = .Accept := by
  simp [resolve_versions, h]

theorem resolve_versions_gt {l r : Nat} (h : r < l) : resolve_versions l r = .Reject := by
  simp [resolve_versions, Nat.lt_asymm h, h]

theorem resolve_versions_eq (l : Nat) : resolve_versions l l = .Conflict := by
  simp [resolve_versions]

theorem localVersionOf_none {s : MemoryStorage} {pk col : String}
    (h : s.get_cell pk col = none) : localVersionOf s pk col = 0 := by
  simp [localVersionOf, h]

theorem localVersionOf_some {s : MemoryStorage} {pk col : String} {c : Cell}
    (h : s.get_cell pk col = some c) : localVersionOf s pk col = c.version := by
  simp [localVersionOf, h]

theorem mergeCell_insert (s : MemoryStorage) (rep : MergeReport) (pk col : String)
    (v : Bytes) (vr : Nat) (pol : TieBreakPolicy) (now : Nat)
    (h0 : localVersionOf s pk col = 0) (hv : 0 < vr) :
    mergeCell s rep pk col v vr pol now =
      some ((s.set_cell pk col ⟨v, vr⟩).append_dag_node pk col ⟨vr, v, none, none, now, false⟩,
            { rep with inserted := rep.inserted + 1 }) := by
  simp [mergeCell, h0, resolve_versions_lt hv]

theorem mergeCell_update (s : MemoryStorage) (rep : MergeReport) (pk col : String)
    (v : Bytes) (vr : Nat) (pol : TieBreakPolicy) (now : Nat)
    (h1 : 0 < localVersionOf s pk col) (h2 : localVersionOf s pk col < vr) :
    mergeCell s rep pk col v vr pol now =
      some ((s.set_cell pk col ⟨v, vr⟩).append_dag_node pk col
              ⟨vr, v, some (localVersionOf s pk col), none, now, false⟩,
            { rep with updated := rep.updated + 1 }) := by
  simp [mergeCell, resolve_versions_lt h2, h1, Nat.pos_iff_ne_zero.1 h1]

theorem mergeCell_skip_older (s : MemoryStorage) (rep : MergeReport) (pk col : String)
    (v : Bytes) (vr : Nat) (pol : TieBreakPolicy) (now : Nat)
    (h : vr < localVersionOf s pk col) :
    mergeCell s rep pk col v vr pol now = some (s, { rep with skipped := rep.skipped + 1 }) := by
  simp [mergeCell, resolve_versions_gt h]

theorem mergeCell_skip_equal (s : MemoryStorage) (rep : MergeReport) (pk col : String)
    (v : Bytes) (vr : Nat) (pol : TieBreakPolicy) (now : Nat) (c : Cell)
    (hc : s.get_cell pk col = some c) (hv : c.version = vr) (hval : c.value = v) :
    mergeCell s rep pk col v vr pol now = some (s, { rep with skipped := rep.skipped + 1 }) := by
  have h0 : localVersionOf s pk col = vr := by rw [localVersionOf_some hc, hv]
  simp [mergeCell, h0, resolve_versions_eq, hc, hval]

theorem mergeCell_conflict (s : MemoryStorage) (rep : MergeReport) (pk col : String)
    (v : Bytes) (vr : Nat) (pol : TieBreakPolicy) (now : Nat) (c : Cell)
    (hc : s.get_cell pk col = some c) (hv : c.version = vr) (hval : c.value ≠ v) :
    mergeCell s rep pk col v vr pol now =
      (if resolve_conflict c.value v pol then
        some ((s.set_cell pk col ⟨v, vr + 1⟩).append_dag_node pk col
                ⟨vr + 1, v, some vr, some vr, now, false⟩,
              { rep with updated := rep.updated + 1, conflicts := rep.conflicts + 1 })
      else
        some (s, { rep with conflicts := rep.conflicts + 1 })) := by
  have h0 : localVersionOf s pk col = vr := by rw [localVersionOf_some hc, hv]
  by_cases hrc : resolve_conflict c.value v pol
  · simp [mergeCell, h0, resolve_versions_eq, hc, hval, hrc]
  · simp [mergeCell, h0, resolve_versions_eq, hc, hval, hrc]

theorem mergeCell_panic (s : MemoryStorage) (rep : MergeReport) (pk col : String)
    (v : Bytes) (pol : TieBreakPolicy) (now : Nat)
    (hc : s.get_cell pk col = none) :
    mergeCell s rep pk col v 0 pol now = none := by
  have h0 : localVersionOf s pk col = 0 := localVersionOf_none hc
  simp [mergeCell, h0, resolve_versions_eq, hc]

theorem mergeCell_frame_cell {s s' : MemoryStorage} {rep rep' : MergeReport}
    {pk col : String} {v : Bytes} {vr : Nat} {pol : TieBreakPolicy} {now : Nat}
    (h : mergeCell s rep pk col v vr pol now = some (s', rep'))
    (pk' col' : String) (hk : (pk', col') ≠ (pk, col)) :
    s'.get_cell pk' col' = s.get_cell pk' col' := by
  simp only [mergeCell] at h
  split at h
  · split at h <;>
    · cases h
      simp [MemoryStorage.get_cell_append_dag, MemoryStorage.get_cell_set_cell_ne _ _ _ _ _ _ hk]
  · cases h
    rfl
  · split at h
    · cases h
    · rename_i lc _
      split at h
      · cases h
        rfl
      · split at h
        · cases h
          simp [MemoryStorage.get_cell_append_dag,
            MemoryStorage.get_cell_set_cell_ne _ _ _ _ _ _ hk]
        · cases h
          rfl

theorem mergeCell_frame_dag {s s' : MemoryStorage} {rep rep' : MergeReport}
    {pk col : String} {v : Bytes} {vr : Nat} {pol : TieBreakPolicy} {now : Nat}
    (h : mergeCell s rep pk col v vr pol now = some (s', rep'))
    (pk' col' : String) (hk : (pk', col') ≠ (pk, col)) :
    s'.get_dag_history pk' col' = s.get_dag_history pk' col' := by
  simp only [mergeCell] at h
  split at h
  · split at h <;>
    · cases h
      simp [MemoryStorage.get_dag_history_append_ne _ _ _ _ _ _ hk,
        MemoryStorage.get_dag_history_set_cell]
  · cases h
    rfl
  · split at h
    · cases h
    · rename_i lc _
      split at h
      · cases h
        rfl
      · split at h
        · cases h
          simp [MemoryStorage.get_dag_history_append_ne _ _ _ _ _ _ hk,
            MemoryStorage.get_dag_history_set_cell]
        · cases h
          rfl

/-! Rust byte-slice order agrees with lexicographic order on lists. -/

theorem bytesLt_iff (a : Bytes) : ∀ b : Bytes, bytesLt a b = true ↔ List.Lex (· < ·) a b := by
  induction a with
  | nil =>
    intro b
    cases b with
    | nil =>
      constructor
      · intro h
        simp [bytesLt] at h
      · intro h
        cases h
    | cons y ys =>
      constructor
      · intro _
        exact List.Lex.nil
      · intro _
        simp [bytesLt]
  | cons x xs ih =>
    intro b
    cases b with
    | nil =>
      constructor
      · intro h
        simp [bytesLt] at h
      · intro h
        cases h
    | cons y ys =>
      by_cases h1 : x < y
      · constructor
        · intro _
          exact List.Lex.rel h1
        · intro _
          simp [bytesLt, h1]
      · by_cases h2 : y < x
        · constructor
          · intro h
            simp [bytesLt, h1, h2] at h
          · intro h
            cases h with
            | rel hr => exact absurd hr h1
            | cons hl => exact absurd h2 (lt_irrefl x)
        · have hxy : x = y := Nat.le_antisymm (Nat.not_lt.1 h2) (Nat.not_lt.1 h1)
          subst hxy
          constructor
          · intro h
            have hx : bytesLt xs ys = true := by
              simpa [bytesLt] using h
            exact List.Lex.cons ((ih ys).1 hx)
          · intro h
            have hx : List.Lex (· < ·) xs ys := by
              cases h with
              | rel hr => exact absurd hr (lt_irrefl x)
              | cons hl => exact hl
            simp [bytesLt, (ih ys).2 hx]

/-! Claim C1: per-cell resolution of CrrTable::merge. -/

/-- C1 counterexample: the claim says a cell with v_l = 0 is always written at
v_r and counted as inserted, but merging into an empty table a changeset whose
only cell carries remote version 0 writes nothing: the merge panics on the
`unwrap` of the absent local value (modelled as a `none` report). -/
theorem merge_absent_zero_version_panics :
    (merge MemoryStorage.new exC1cs .PreferExisting 0).2 = none ∧
    (merge MemoryStorage.new exC1cs .PreferExisting 0).1.get_cell "r" "c" = none := by
  exact ⟨rfl, rfl⟩

/-- C1 (amended): for every cell (pk, col) of a merged changeset, CrrTable::merge
compares the local version v_l (the stored version, 0 when the cell is absent)
with the remote version v_r: if v_l = 0 and v_r ≥ 1 it writes the remote value
at v_r, appends a DAG node with no parent and counts the cell as inserted; if
0 < v_l < v_r it writes the remote value at v_r, appends a DAG node with
primary parent v_l and counts it as updated; if v_l > v_r it changes nothing
and counts it as skipped; if v_l = v_r with byte-equal values it changes
nothing and counts it as skipped; and if v_l = 0 = v_r with no local cell the
merge panics instead of inserting. -/
theorem merge_per_cell_resolution (s : MemoryStorage) (rep : MergeReport)
    (pk col : String) (v : Bytes) (vr : Nat) (pol : TieBreakPolicy) (now : Nat) :
    (localVersionOf s pk col = 0 → 0 < vr →
      ∃ s', mergeCell s rep pk col v vr pol now =
          some (s', { rep with inserted := rep.inserted + 1 }) ∧
        s'.get_cell pk col = some ⟨v, vr⟩ ∧
        s'.get_dag_history pk col =
          s.get_dag_history pk col ++ [⟨vr, v, none, none, now, false⟩]) ∧
    (0 < localVersionOf s pk col → localVersionOf s pk col < vr →
      ∃ s', mergeCell s rep pk col v vr pol now =
          some (s', { rep with updated := rep.updated + 1 }) ∧
        s'.get_cell pk col = some ⟨v, vr⟩ ∧
        s'.get_dag_history pk col =
          s.get_dag_history pk col ++
            [⟨vr, v, some (localVersionOf s pk col), none, now, false⟩]) ∧
    (vr < localVersionOf s pk col →
      mergeCell s rep pk col v vr pol now =
        some (s, { rep with skipped := rep.skipped + 1 })) ∧
    (∀ c, s.get_cell pk col = some c → c.version = vr → c.value = v →
      mergeCell s rep pk col v vr pol now =
        some (s, { rep with skipped := rep.skipped + 1 })) ∧
    (s.get_cell pk col = none → vr = 0 → mergeCell s rep pk col v vr pol now = none) := by
  refine ⟨?_, ?_, ?_, ?_, ?_⟩
  · intro h0 hv
    refine ⟨_, mergeCell_insert s rep pk col v vr pol now h0 hv, ?_, ?_⟩
    · rw [MemoryStorage.get_cell_append_dag, MemoryStorage.get_cell_set_cell_self]
    · rw [MemoryStorage.get_dag_history_append_self, MemoryStorage.get_dag_history_set_cell]
  · intro h1 h2
    refine ⟨_, mergeCell_update s rep pk col v vr pol now h1 h2, ?_, ?_⟩
    · rw [MemoryStorage.get_cell_append_dag, MemoryStorage.get_cell_set_cell_self]
    · rw [MemoryStorage.get_dag_history_append_self, MemoryStorage.get_dag_history_set_cell]
  · intro h
    exact mergeCell_skip_older s rep pk col v vr pol now h
  · intro c hc hv hval
    exact mergeCell_skip_equal s rep pk col v vr pol now c hc hv hval
  · intro hc hv
    subst hv
    exact mergeCell_panic s rep pk col v pol now hc

/-- C1 witness: the amended per-cell resolution evaluated on a concrete state
(a stored cell ("r","a") at version 2) for each of the five cases. -/
theorem merge_per_cell_resolution_witness :
    (localVersionOf exC1s "r" "z" = 0 ∧
      ∃ s', mergeCell exC1s MergeReport.init "r" "z" [9] 1 .PreferExisting 7 =
          some (s', { MergeReport.init with inserted := MergeReport.init.inserted + 1 }) ∧
        s'.get_cell "r" "z" = some ⟨[9], 1⟩ ∧
        s'.get_dag_history "r" "z" =
          exC1s.get_dag_history "r" "z" ++ [⟨1, [9], none, none, 7, false⟩]) ∧
    (∃ s', mergeCell exC1s MergeReport.init "r" "a" [9] 3 .PreferExisting 7 =
        some (s', { MergeReport.init with updated := MergeReport.init.updated + 1 }) ∧
      s'.get_cell "r" "a" = some ⟨[9], 3⟩ ∧
      s'.get_dag_history "r" "a" =
        exC1s.get_dag_history "r" "a" ++
          [⟨3, [9], some (localVersionOf exC1s "r" "a"), none, 7, false⟩]) ∧
    (mergeCell exC1s MergeReport.init "r" "a" [9] 1 .PreferExisting 7 =
      some (exC1s, { MergeReport.init with skipped := MergeReport.init.skipped + 1 })) ∧
    (mergeCell exC1s MergeReport.init "r" "a" [2] 2 .PreferExisting 7 =
      some (exC1s, { MergeReport.init with skipped := MergeReport.init.skipped + 1 })) ∧
    (mergeCell exC1s MergeReport.init "r" "z" [9] 0 .PreferExisting 7 = none) := by
  refine ⟨⟨by decide, ?_⟩, ?_, ?_, ?_, ?_⟩
  · exact (merge_per_cell_resolution exC1s MergeReport.init "r" "z" [9] 1 .PreferExisting 7).1
      (by decide) (by decide)
  · exact (merge_per_cell_resolution exC1s MergeReport.init "r" "a" [9] 3 .PreferExisting 7).2.1
      (by decide) (by decide)
  · exact (merge_per_cell_resolution exC1s MergeReport.init "r" "a" [9] 1 .PreferExisting 7).2.2.1
      (by decide)
  · exact (merge_per_cell_resolution exC1s MergeReport.init "r" "a" [2] 2
      .PreferExisting 7).2.2.2.1 ⟨[2], 2⟩ (by decide) rfl rfl
  · exact (merge_per_cell_resolution exC1s MergeReport.init "r" "z" [9] 0
      .PreferExisting 7).2.2.2.2 (by decide) rfl

/-! Claim C2: conflict resolution under the three tiebreak policies. -/

/-- C2: when CrrTable::merge finds equal local and remote versions (v_l = v_r > 0)
with differing values it counts one conflict and resolves by policy:
PreferExisting performs no write; PreferIncoming writes the remote value at
v_r + 1 and appends a DAG node with primary parent v_l and secondary parent
v_r, also counting one update; LexicographicMin accepts the remote value
exactly when it is byte-lexicographically smaller than the local value, with
the same bump and two-parent node, and otherwise behaves like PreferExisting. -/
theorem merge_conflict_policies (s : MemoryStorage) (rep : MergeReport)
    (pk col : String) (v : Bytes) (vr : Nat) (now : Nat) (c : Cell)
    (hc : s.get_cell pk col = some c) (hv : c.version = vr) (_hpos : 0 < vr)
    (hne : c.value ≠ v) :
    (mergeCell s rep pk col v vr .PreferExisting now =
      some (s, { rep with conflicts := rep.conflicts + 1 })) ∧
    (∃ s', mergeCell s rep pk col v vr .PreferIncoming now =
        some (s', { rep with updated := rep.updated + 1, conflicts := rep.conflicts + 1 }) ∧
      s'.get_cell pk col = some ⟨v, vr + 1⟩ ∧
      s'.get_dag_history pk col =
        s.get_dag_history pk col ++ [⟨vr + 1, v, some vr, some vr, now, false⟩]) ∧
    (List.Lex (· < ·) v c.value →
      ∃ s', mergeCell s rep pk col v vr .LexicographicMin now =
          some (s', { rep with updated := rep.updated + 1, conflicts := rep.conflicts + 1 }) ∧
        s'.get_cell pk col = some ⟨v, vr + 1⟩ ∧
        s'.get_dag_history pk col =
          s.get_dag_history pk col ++ [⟨vr + 1, v, some vr, some vr, now, false⟩]) ∧
    (¬ List.Lex (· < ·) v c.value →
      mergeCell s rep pk col v vr .LexicographicMin now =
        some (s, { rep with conflicts := rep.conflicts + 1 })) := by
  refine ⟨?_, ?_, ?_, ?_⟩
  · have h := mergeCell_conflict s rep pk col v vr .PreferExisting now c hc hv hne
    simpa [resolve_conflict] using h
  · have h := mergeCell_conflict s rep pk col v vr .PreferIncoming now c hc hv hne
    simp only [resolve_conflict, if_pos] at h
    refine ⟨_, h, ?_, ?_⟩
    · rw [MemoryStorage.get_cell_append_dag, MemoryStorage.get_cell_set_cell_self]
    · rw [MemoryStorage.get_dag_history_append_self, MemoryStorage.get_dag_history_set_cell]
  · intro hlex
    have hb : bytesLt v c.value = true := (bytesLt_iff v c.value).2 hlex
    have h := mergeCell_conflict s rep pk col v vr .LexicographicMin now c hc hv hne
    rw [show resolve_conflict c.value v .LexicographicMin = true from hb, if_pos rfl] at h
    refine ⟨_, h, ?_, ?_⟩
    · rw [MemoryStorage.get_cell_append_dag, MemoryStorage.get_cell_set_cell_self]
    · rw [MemoryStorage.get_dag_history_append_self, MemoryStorage.get_dag_history_set_cell]
  · intro hlex
    have hb : bytesLt v c.value = false := by
      by_cases hbb : bytesLt v c.value = true
      · exact absurd ((bytesLt_iff v c.value).1 hbb) hlex
      · exact Bool.not_eq_true _ ▸ (Bool.eq_false_iff.2 hbb)
    have h := mergeCell_conflict s rep pk col v vr .LexicographicMin now c hc hv hne
    rw [show resolve_conflict c.value v .LexicographicMin = bytesLt v c.value from rfl, hb] at h
    simpa using h

/-- C2 witness: the three policies evaluated on a stored cell ("r","a") with
value [5] at version 2 against remote value [1] (lexicographically smaller) at
version 2. -/
theorem merge_conflict_policies_witness :
    exC2s.get_cell "r" "a" = some ⟨[5], 2⟩ ∧
    (mergeCell exC2s MergeReport.init "r" "a" [1] 2 .PreferExisting 3 =
      some (exC2s, (⟨0, 0, 0, 1⟩ : MergeReport))) ∧
    (∃ s', mergeCell exC2s MergeReport.init "r" "a" [1] 2 .PreferIncoming 3 =
        some (s', (⟨0, 1, 0, 1⟩ : MergeReport)) ∧
      s'.get_cell "r" "a" = some ⟨[1], 3⟩ ∧
      s'.get_dag_history "r" "a" =
        exC2s.get_dag_history "r" "a" ++ [⟨3, [1], some 2, some 2, 3, false⟩]) ∧
    (∃ s', mergeCell exC2s MergeReport.init "r" "a" [1] 2 .LexicographicMin 3 =
        some (s', (⟨0, 1, 0, 1⟩ : MergeReport)) ∧
      s'.get_cell "r" "a" = some ⟨[1], 3⟩ ∧
      s'.get_dag_history "r" "a" =
        exC2s.get_dag_history "r" "a" ++ [⟨3, [1], some 2, some 2, 3, false⟩]) := by
  have h := merge_conflict_policies exC2s MergeReport.init "r" "a" [1] 2 3 ⟨[5], 2⟩
    (by decide) rfl (by decide) (by decide)
  exact ⟨by decide, h.1, h.2.1, h.2.2.1 (by decide)⟩

/-! Claim C9: builder commit semantics. -/

/-- C9 counterexample: the claim says insert commits at current + 1 (1 when the
column is absent), identically to update; but on an empty table an insert
staging ("c", version 7) writes version 7 while update writes version 1. -/
theorem insert_uses_caller_version :
    exC9s.get_cell "r" "c" = some ⟨[65], 7⟩ ∧
    (updateCommit MemoryStorage.new "r" [("c", [65])] 0).get_cell "r" "c" = some ⟨[65], 1⟩ ∧
    exC9s.get_cell "r" "c" ≠
      (updateCommit MemoryStorage.new "r" [("c", [65])] 0).get_cell "r" "c" := by
  exact ⟨rfl, rfl, by decide⟩

/-- C9 (amended): for every staged column, InsertBuilder::commit writes the
cell at the caller-supplied version and appends a DAG node whose primary
parent is the previous version when it is positive (none otherwise), while
UpdateBuilder::commit writes at current + 1 (1 when the column is absent) and
appends a DAG node whose primary parent is the previous cell's version exactly
when a previous cell exists; the two builders are not identical in semantics. -/
theorem builder_commit_semantics (s : MemoryStorage) (pk col : String) (v : Bytes)
    (ver now : Nat) :
    ((insertStep s pk col v ver now).get_cell pk col = some ⟨v, ver⟩ ∧
     (insertStep s pk col v ver now).get_dag_history pk col =
       s.get_dag_history pk col ++
         [⟨ver, v,
           if 0 < localVersionOf s pk col then some (localVersionOf s pk col) else none,
           none, now, false⟩]) ∧
    ((updateStep s pk col v now).get_cell pk col = some ⟨v, localVersionOf s pk col + 1⟩ ∧
     (updateStep s pk col v now).get_dag_history pk col =
       s.get_dag_history pk col ++
         [⟨localVersionOf s pk col + 1, v, (s.get_cell pk col).map Cell.version,
           none, now, false⟩]) := by
  refine ⟨⟨?_, ?_⟩, ?_, ?_⟩
  · simp only [insertStep]
    rw [MemoryStorage.get_cell_append_dag, MemoryStorage.get_cell_set_cell_self]
  · simp only [insertStep]
    rw [MemoryStorage.get_dag_history_append_self, MemoryStorage.get_dag_history_set_cell]
  · cases hc : s.get_cell pk col with
    | none =>
      simp only [updateStep, hc, localVersionOf]
      rw [MemoryStorage.get_cell_append_dag, MemoryStorage.get_cell_set_cell_self]
    | some c =>
      simp only [updateStep, hc, localVersionOf]
      rw [MemoryStorage.get_cell_append_dag, MemoryStorage.get_cell_set_cell_self]
  · cases hc : s.get_cell pk col with
    | none =>
      simp only [updateStep, hc, localVersionOf, Option.map]
      rw [MemoryStorage.get_dag_history_append_self, MemoryStorage.get_dag_history_set_cell]
    | some c =>
      simp only [updateStep, hc, localVersionOf, Option.map]
      rw [MemoryStorage.get_dag_history_append_self, MemoryStorage.get_dag_history_set_cell]

/-! Claim C10: a value-map column missing from the version map defaults to
remote version 1. -/

/-- C10: when a changeset entry lists a column in its value map with no entry
in its version map, CrrTable::merge uses remote version 1
(`remote_versions.get(col).unwrap_or(&1)`): the flattened work list carries the
cell at version 1; at remote version 1 the cell is inserted at version 1 when
the local version is 0 (absent), skipped when the local version exceeds 1, and
handled as a version-1 conflict when the local version is 1 (skipped on equal
values, one conflict counted otherwise). -/
theorem merge_missing_version_defaults_one (cs : Changeset) (s : MemoryStorage)
    (rep : MergeReport) (pk col pkE : String) (colsE : List (String × Bytes))
    (versE : List (String × Nat)) (v : Bytes) (pol : TieBreakPolicy) (now : Nat) :
    ((pkE, (colsE, versE)) ∈ cs.changes → (col, v) ∈ colsE → alGet versE col = none →
      (pkE, col, v, 1) ∈ cs.cells) ∧
    (localVersionOf s pk col = 0 →
      ∃ s', mergeCell s rep pk col v 1 pol now =
          some (s', { rep with inserted := rep.inserted + 1 }) ∧
        s'.get_cell pk col = some ⟨v, 1⟩) ∧
    (2 ≤ localVersionOf s pk col →
      mergeCell s rep pk col v 1 pol now = some (s, { rep with skipped := rep.skipped + 1 })) ∧
    (∀ c, s.get_cell pk col = some c → c.version = 1 →
      ((c.value = v → mergeCell s rep pk col v 1 pol now =
          some (s, { rep with skipped := rep.skipped + 1 })) ∧
       (c.value ≠ v → ∃ s' rep', mergeCell s rep pk col v 1 pol now = some (s', rep') ∧
          rep'.conflicts = rep.conflicts + 1))) := by
  refine ⟨?_, ?_, ?_, ?_⟩
  · intro hmem hcol hvers
    have : (pkE, col, v, (alGet versE col).getD 1) ∈ cs.cells := by
      simp only [Changeset.cells]
      exact List.mem_flatMap.2 ⟨(pkE, (colsE, versE)), hmem,
        List.mem_map.2 ⟨(col, v), hcol, rfl⟩⟩
    rw [hvers] at this
    exact this
  · intro h0
    refine ⟨_, mergeCell_insert s rep pk col v 1 pol now h0 (by decide), ?_⟩
    rw [MemoryStorage.get_cell_append_dag, MemoryStorage.get_cell_set_cell_self]
  · intro h2
    exact mergeCell_skip_older s rep pk col v 1 pol now h2
  · intro c hc hv
    refine ⟨?_, ?_⟩
    · intro hval
      exact mergeCell_skip_equal s rep pk col v 1 pol now c hc hv hval
    · intro hval
      have h := mergeCell_conflict s rep pk col v 1 pol now c hc hv hval
      by_cases hrc : resolve_conflict c.value v pol = true
      · rw [hrc, if_pos rfl] at h
        exact ⟨_, _, h, rfl⟩
      · rw [Bool.eq_false_iff.2 hrc] at h
        simp only [Bool.false_eq_true, if_neg, not_false_iff] at h
        exact ⟨_, _, h, rfl⟩

/-- C10 witness: the default applies on a concrete changeset with no version
entry for column "c", against a table whose only cell is ("r","a") at
version 1. -/
theorem merge_missing_version_defaults_one_witness :
    (("r", ([("c", [8])], ([] : List (String × Nat)))) ∈ exC10cs.changes ∧
      ("c", [8]) ∈ [("c", ([8] : Bytes))] ∧
      alGet ([] : List (String × Nat)) "c" = none ∧
      ("r", "c", [8], 1) ∈ exC10cs.cells) ∧
    (localVersionOf exC10s "r" "c" = 0 ∧
      ∃ s', mergeCell exC10s MergeReport.init "r" "c" [8] 1 .PreferExisting 4 =
          some (s', { MergeReport.init with inserted := MergeReport.init.inserted + 1 }) ∧
        s'.get_cell "r" "c" = some ⟨[8], 1⟩) ∧
    (exC10s.get_cell "r" "a" = some ⟨[4], 1⟩ ∧
      mergeCell exC10s MergeReport.init "r" "a" [4] 1 .PreferExisting 4 =
        some (exC10s, { MergeReport.init with skipped := MergeReport.init.skipped + 1 }) ∧
      ∃ s' rep', mergeCell exC10s MergeReport.init "r" "a" [9] 1 .PreferExisting 4 =
          some (s', rep') ∧ rep'.conflicts = MergeReport.init.conflicts + 1) := by
  have h1 := merge_missing_version_defaults_one exC10cs exC10s MergeReport.init "r" "c" "r"
    [("c", [8])] [] [8] .PreferExisting 4
  have h2 := merge_missing_version_defaults_one exC10cs exC10s MergeReport.init "r" "a" "r"
    [("c", [8])] [] [4] .PreferExisting 4
  have h3 := merge_missing_version_defaults_one exC10cs exC10s MergeReport.init "r" "a" "r"
    [("c", [8])] [] [9] .PreferExisting 4
  refine ⟨⟨by decide, by decide, rfl, ?_⟩, ⟨by decide, ?_⟩, ⟨by decide, ?_, ?_⟩⟩
  · exact h1.1 (by decide) (by decide) rfl
  · exact h1.2.1 (by decide)
  · exact (h2.2.2.2 ⟨[4], 1⟩ (by decide) rfl).1 rfl
  · exact (h3.2.2.2 ⟨[4], 1⟩ (by decide) rfl).2 (by decide)

/-! Claim C3: atomicity of CrrTable::merge. -/

/-- C3: the claim requires that a failing merge roll back so the table is
unchanged, on both storage implementations; but MemoryStorage transactions are
no-ops and CrrTable::merge never invokes rollback on its error path, so a
merge that fails midway (here: the second cell panics on remote version 0 with
no local cell) leaves the first cell's mutation applied — partial application
observable through the storage the caller retains. -/
theorem merge_partial_application_on_error :
    (merge MemoryStorage.new exC3cs .PreferExisting 0).2 = none ∧
    (merge MemoryStorage.new exC3cs .PreferExisting 0).1.get_cell "r" "a" = some ⟨[1], 1⟩ ∧
    (merge MemoryStorage.new exC3cs .PreferExisting 0).1 ≠ MemoryStorage.new ∧
    MemoryStorage.rollback_transaction (merge MemoryStorage.new exC3cs .PreferExisting 0).1 =
      (merge MemoryStorage.new exC3cs .PreferExisting 0).1 := by
  exact ⟨rfl, rfl, by decide, rfl⟩

/-! Claim C8: gc with keep_n = 0 on a non-empty column. -/

/-- C8: the claim requires keep_n = 0 to be refused or reinterpreted, never
removing the node backing the live cell and never aborting; but on a column
with one DAG node backing the live cell, MemoryStorage's gc_dag removes the
entire history (1 node removed, history empty, via Table::gc as well), and the
sqlite gc_dag decision logic panics on the out-of-bounds index
history[history.len()] (modelled as none). -/
theorem gc_zero_removes_backing_node :
    exC8s.get_cell "r" "c" = some ⟨[65], 1⟩ ∧
    (exC8s.gc_dag "r" "c" 0).1.get_dag_history "r" "c" = [] ∧
    (exC8s.gc_dag "r" "c" 0).2 = 1 ∧
    (tableGc exC8s 0).1.get_dag_history "r" "c" = [] ∧
    sqlite_gc_dag_count (exC8s.get_dag_history "r" "c") 0 = none := by
  exact ⟨rfl, rfl, rfl, rfl, rfl⟩

/-! Permutation facts about the pk sort, and coverage of exported changesets. -/

theorem sortInsert_perm (x : String) (l : List String) :
    List.Perm (MemoryStorage.sortInsert x l) (x :: l) := by
  induction l with
  | nil => exact List.Perm.refl _
  | cons y ys ih =>
    cases h : MemoryStorage.strLe x y with
    | true =>
      rw [show MemoryStorage.sortInsert x (y :: ys) = x :: y :: ys by
        simp [MemoryStorage.sortInsert, h]]
    | false =>
      rw [show MemoryStorage.sortInsert x (y :: ys) = y :: MemoryStorage.sortInsert x ys by
        simp [MemoryStorage.sortInsert, h]]
      exact (List.Perm.cons y ih).trans (List.Perm.swap x y ys)

theorem sortPks_perm (l : List String) : List.Perm (MemoryStorage.sortPks l) l := by
  induction l with
  | nil => exact List.Perm.refl _
  | cons x xs ih =>
    exact (sortInsert_perm x (MemoryStorage.sortPks xs)).trans (List.Perm.cons x ih)

theorem mem_sortPks {a : String} {l : List String} :
    a ∈ MemoryStorage.sortPks l ↔ a ∈ l :=
  (sortPks_perm l).mem_iff

theorem sortPks_nodup {l : List String} (h : l.Nodup) :
    (MemoryStorage.sortPks l).Nodup :=
  ((sortPks_perm l).nodup_iff).2 h

theorem get_row_eq_some {s : MemoryStorage} {pk : String} {cells : List (String × Cell)}
    (h : s.get_row pk = some cells) :
    ∃ rd, alGet s.rows pk = some rd ∧ rd.cells = cells := by
  unfold MemoryStorage.get_row at h
  split at h
  · cases h
  · rename_i rd halr
    split at h
    · cases h
    · cases h
      exact ⟨rd, halr, rfl⟩

theorem get_row_of_cell {s : MemoryStorage} {pk col : String} {c : Cell}
    (h : s.get_cell pk col = some c) :
    ∃ rd, alGet s.rows pk = some rd ∧ alGet rd.cells col = some c ∧
      s.get_row pk = some rd.cells := by
  unfold MemoryStorage.get_cell at h
  split at h
  · cases h
  · rename_i rd halr
    refine ⟨rd, halr, h, ?_⟩
    have hne : rd.cells.isEmpty = false := by
      have hm := alGet_eq_some_mem h
      cases hcl : rd.cells with
      | nil =>
        rw [hcl] at hm
        cases hm
      | cons a l => simp [hcl]
    simp [MemoryStorage.get_row, halr, hne]

theorem wf_cells_nodup {s : MemoryStorage} (hwf : WF s) {pk : String} {rd : RowData}
    (h : alGet s.rows pk = some rd) : (rd.cells.map Prod.fst).Nodup :=
  hwf.2 (pk, rd) (alGet_eq_some_mem h)

theorem versioned_get_cell {s : MemoryStorage} (hv : Versioned s) {pk col : String}
    {c : Cell} (h : s.get_cell pk col = some c) : 1 ≤ c.version := by
  obtain ⟨rd, halr, halc, -⟩ := get_row_of_cell h
  exact hv (pk, rd) (alGet_eq_some_mem halr) (col, c) (alGet_eq_some_mem halc)

/-- Coverage of table.rs `changeset`: for a well-formed table, the flattened
changeset contains exactly the live cells with their values and versions. -/
theorem changeset_cells_mem (s : MemoryStorage) (hwf : WF s) (pk col : String)
    (v : Bytes) (ver : Nat) :
    (pk, col, v, ver) ∈ (changesetOf s).cells ↔ s.get_cell pk col = some ⟨v, ver⟩ := by
  constructor
  · intro h
    obtain ⟨entry, hentry, hprod⟩ := List.mem_flatMap.1 h
    obtain ⟨pk0, hpk0, hg⟩ := List.mem_filterMap.1 hentry
    cases hrow : s.get_row pk0 with
    | none =>
      rw [hrow] at hg
      cases hg
    | some cells0 =>
      rw [hrow] at hg
      cases hg
      obtain ⟨ce', hce', heq⟩ := List.mem_map.1 hprod
      obtain ⟨ce, hce, hceq⟩ := List.mem_map.1 hce'
      subst hceq
      obtain ⟨rd, halr, hrdcells⟩ := get_row_eq_some hrow
      subst hrdcells
      have hnd := wf_cells_nodup hwf halr
      simp only [Prod.mk.injEq] at heq
      obtain ⟨hpk, hcol, hval, hver⟩ := heq
      subst hpk
      subst hcol
      subst hval
      have halc : alGet rd.cells ce.1 = some ce.2 := alGet_of_mem_nodup hnd hce
      have hmap : alGet (rd.cells.map (fun e => (e.1, e.2.version))) ce.1 =
          (alGet rd.cells ce.1).map Cell.version := alGet_map_pair Cell.version rd.cells ce.1
      rw [halc] at hmap
      rw [hmap] at hver
      simp only [Option.map_some', Option.getD_some] at hver
      subst hver
      simp [MemoryStorage.get_cell, halr, halc]
  · intro h
    obtain ⟨rd, halr, halc, hrow⟩ := get_row_of_cell h
    have hpk : pk ∈ s.all_pks := by
      unfold MemoryStorage.all_pks
      exact mem_sortPks.2 (mem_keys_of_alGet halr)
    have hentry : (pk, (rd.cells.map (fun e => (e.1, e.2.value)),
        rd.cells.map (fun e => (e.1, e.2.version)))) ∈ (changesetOf s).changes := by
      apply List.mem_filterMap.2
      exact ⟨pk, hpk, by rw [hrow]⟩
    apply List.mem_flatMap.2
    refine ⟨_, hentry, ?_⟩
    apply List.mem_map.2
    refine ⟨(col, v), List.mem_map.2 ⟨(col, ⟨v, ver⟩), alGet_eq_some_mem halc, rfl⟩, ?_⟩
    have hmap : alGet (rd.cells.map (fun e => (e.1, e.2.version))) col =
        (alGet rd.cells col).map Cell.version := alGet_map_pair Cell.version rd.cells col
    rw [halc] at hmap
    simp [hmap]

theorem cellKey_mem_tags :
    ∀ (changes : List (String × (List (String × Bytes) × List (String × Nat))))
      (pkc : String × String),
      pkc ∈ (Changeset.cells ⟨changes⟩).map cellKey → pkc.1 ∈ changes.map Prod.fst := by
  intro changes pkc h
  obtain ⟨e, he, hk⟩ := List.mem_map.1 h
  obtain ⟨entry, hentry, hprod⟩ := List.mem_flatMap.1 he
  obtain ⟨ce', -, heq⟩ := List.mem_map.1 hprod
  subst heq
  subst hk
  exact List.mem_map.2 ⟨entry, hentry, rfl⟩

theorem cells_keys_nodup_of :
    ∀ (changes : List (String × (List (String × Bytes) × List (String × Nat)))),
      (changes.map Prod.fst).Nodup → (∀ e ∈ changes, (e.2.1.map Prod.fst).Nodup) →
      keysNodup (Changeset.cells ⟨changes⟩) := by
  intro changes
  induction changes with
  | nil =>
    intro _ _
    simp [keysNodup, Changeset.cells]
  | cons e rest ih =>
    intro hnd hcols
    have hrest := ih (List.nodup_cons.1 hnd).2
      (fun e' he' => hcols e' (List.mem_cons_of_mem _ he'))
    unfold keysNodup Changeset.cells
    simp only [List.flatMap_cons, List.map_append]
    apply List.Nodup.append
    · have hmapeq : (e.2.1.map (fun ce => (e.1, ce.1, ce.2, (alGet e.2.2 ce.1).getD 1))).map
          cellKey = (e.2.1.map Prod.fst).map (fun c => (e.1, c)) := by
        simp [cellKey, Function.comp_def]
    
      rw [hmapeq]
      refine List.Nodup.map ?_ (hcols e (List.mem_cons_self e rest))
      intro a b hab
      injection hab with h1 h2
    · exact hrest
    · intro pkc h1 h2
      have hk1 : pkc.1 = e.1 := by
        obtain ⟨x, hx, hxeq⟩ := List.mem_map.1 h1
        obtain ⟨ce, hce, hceq⟩ := List.mem_map.1 hx
        subst hceq
        rw [← hxeq]
        rfl
      have hk2 : pkc.1 ∈ rest.map Prod.fst := cellKey_mem_tags rest pkc h2
      rw [hk1] at hk2
      exact (List.nodup_cons.1 hnd).1 hk2

theorem filterMap_fst_sublist
    (g : String → Option (String × (List (String × Bytes) × List (String × Nat))))
    (hg : ∀ pk e, g pk = some e → e.1 = pk) :
    ∀ pks : List String, ((pks.filterMap g).map Prod.fst).Sublist pks := by
  intro pks
  induction pks with
  | nil => simp
  | cons pk rest ih =>
    cases hgpk : g pk with
    | none =>
      simp only [List.filterMap_cons, hgpk]
      exact ih.cons pk
    | some e =>
      simp only [List.filterMap_cons, hgpk, List.map_cons]
      rw [hg pk e hgpk]
      exact ih.cons₂ pk

/-- The flattened changeset of a well-formed table has pairwise distinct
(pk, col) keys. -/
theorem changeset_keysNodup (s : MemoryStorage) (hwf : WF s) :
    keysNodup (changesetOf s).cells := by
  have htags : ((changesetOf s).changes.map Prod.fst).Nodup := by
    apply List.Sublist.nodup
    · exact filterMap_fst_sublist _ (by
        intro pk e hg
        cases hrow : s.get_row pk with
        | none =>
          rw [hrow] at hg
          cases hg
        | some cells =>
          rw [hrow] at hg
          cases hg
          rfl) s.all_pks
    · exact sortPks_nodup hwf.1
  have hcols : ∀ e ∈ (changesetOf s).changes, (e.2.1.map Prod.fst).Nodup := by
    intro e he
    obtain ⟨pk0, -, hg⟩ := List.mem_filterMap.1 he
    cases hrow : s.get_row pk0 with
    | none =>
      rw [hrow] at hg
      cases hg
    | some cells0 =>
      rw [hrow] at hg
      cases hg
      obtain ⟨rd, halr, hrdcells⟩ := get_row_eq_some hrow
      subst hrdcells
      have hnd := wf_cells_nodup hwf halr
      simpa [Function.comp_def] using hnd
  exact cells_keys_nodup_of (changesetOf s).changes htags hcols

/-! Merging a changeset of fresh cells into a table inserts them all. -/

theorem mergeCells_insert_all (pol : TieBreakPolicy) (now : Nat) :
    ∀ (L : List (String × String × Bytes × Nat)) (s : MemoryStorage) (rep : MergeReport),
      keysNodup L → (∀ e ∈ L, s.get_cell e.1 e.2.1 = none) → (∀ e ∈ L, 1 ≤ e.2.2.2) →
      (mergeCells s rep pol now L).2.isSome = true ∧
      (∀ e ∈ L, (mergeCells s rep pol now L).1.get_cell e.1 e.2.1 =
        some ⟨e.2.2.1, e.2.2.2⟩) ∧
      (∀ pk col, (pk, col) ∉ L.map cellKey →
        (mergeCells s rep pol now L).1.get_cell pk col = s.get_cell pk col) := by
  intro L
  induction L with
  | nil =>
    intro s rep _ _ _
    refine ⟨rfl, ?_, ?_⟩
    · intro e he
      cases he
    · intro pk col _
      rfl
  | cons e0 L' ih =>
    intro s rep hnd habs hver
    obtain ⟨pk0, col0, v0, ver0⟩ := e0
    have h0 : localVersionOf s pk0 col0 = 0 :=
      localVersionOf_none (habs _ (List.mem_cons_self _ _))
    have hv0 : 0 < ver0 := hver _ (List.mem_cons_self _ _)
    have hmc := mergeCell_insert s rep pk0 col0 v0 ver0 pol now h0 hv0
    have hstep : mergeCells s rep pol now ((pk0, col0, v0, ver0) :: L') =
        mergeCells
          ((s.set_cell pk0 col0 ⟨v0, ver0⟩).append_dag_node pk0 col0
            ⟨ver0, v0, none, none, now, false⟩)
          { rep with inserted := rep.inserted + 1 } pol now L' := by
      simp [mergeCells, hmc]
    have hkey0 : (pk0, col0) ∉ L'.map cellKey := by
      have hx := hnd
      unfold keysNodup at hx
      simp only [List.map_cons] at hx
      exact (List.nodup_cons.1 hx).1
    have hnd' : keysNodup L' := by
      have hx := hnd
      unfold keysNodup at hx
      simp only [List.map_cons] at hx
      exact (List.nodup_cons.1 hx).2
    have hkne : ∀ e ∈ L', (e.1, e.2.1) ≠ (pk0, col0) := by
      intro e he heq
      apply hkey0
      rw [← heq]
      exact List.mem_map.2 ⟨e, he, rfl⟩
    have habs2 : ∀ e ∈ L',
        ((s.set_cell pk0 col0 ⟨v0, ver0⟩).append_dag_node pk0 col0
          ⟨ver0, v0, none, none, now, false⟩).get_cell e.1 e.2.1 = none := by
      intro e he
      rw [MemoryStorage.get_cell_append_dag,
        MemoryStorage.get_cell_set_cell_ne _ _ _ _ _ _ (hkne e he)]
      exact habs e (List.mem_cons_of_mem _ he)
    have hver' : ∀ e ∈ L', 1 ≤ e.2.2.2 := fun e he => hver e (List.mem_cons_of_mem _ he)
    have IH := ih ((s.set_cell pk0 col0 ⟨v0, ver0⟩).append_dag_node pk0 col0
      ⟨ver0, v0, none, none, now, false⟩) { rep with inserted := rep.inserted + 1 }
      hnd' habs2 hver'
    refine ⟨?_, ?_, ?_⟩
    · rw [hstep]
      exact IH.1
    · intro e he
      rcases List.mem_cons.1 he with rfl | he'
    
      · show (mergeCells s rep pol now ((pk0, col0, v0, ver0) :: L')).1.get_cell pk0 col0 =
          some ⟨v0, ver0⟩
        rw [hstep, IH.2.2 pk0 col0 hkey0, MemoryStorage.get_cell_append_dag,
          MemoryStorage.get_cell_set_cell_self]
      · rw [hstep]
        exact IH.2.1 e he'
    · intro pk col hk
      simp only [List.map_cons] at hk
      have hk1 : (pk, col) ∉ L'.map cellKey := by
        intro hh
        exact hk (List.mem_cons_of_mem _ hh)
      have hk0 : (pk, col) ≠ (pk0, col0) := by
        intro heq
        apply hk
        rw [heq]
        exact List.mem_cons_self _ _
      rw [hstep, IH.2.2 pk col hk1, MemoryStorage.get_cell_append_dag,
        MemoryStorage.get_cell_set_cell_ne _ _ _ _ _ _ hk0]

/-! Claim C6: changeset round-trip into a fresh table. -/

/-- C6 counterexample: the claim quantifies over every table, but a table
holding a version-0 cell (written through the public insert builder) breaks
the round-trip: its changeset carries remote version 0, and merging it into a
fresh empty table panics without writing the cell. -/
theorem roundtrip_fails_on_version_zero :
    (merge MemoryStorage.new (changesetOf exC6T0) .PreferExisting 0).2 = none ∧
    (merge MemoryStorage.new (changesetOf exC6T0) .PreferExisting 0).1.get_cell "r" "c" ≠
      exC6T0.get_cell "r" "c" := by
  exact ⟨rfl, by decide⟩

/-- C6 (amended): for every well-formed table T whose cells all carry positive
versions, and every tiebreak policy, exporting changeset(T) and merging it
into a fresh empty table succeeds and yields a table whose cells (value and
version, per (pk, col)) are identical to T's; DAG history is not required to
be preserved. -/
theorem changeset_roundtrip (T : MemoryStorage) (pol : TieBreakPolicy) (now : Nat)
    (hwf : WF T) (hver : Versioned T) :
    (merge MemoryStorage.new (changesetOf T) pol now).2.isSome = true ∧
    ∀ pk col, (merge MemoryStorage.new (changesetOf T) pol now).1.get_cell pk col =
      T.get_cell pk col := by
  have hnd := changeset_keysNodup T hwf
  have habs : ∀ e ∈ (changesetOf T).cells, MemoryStorage.new.get_cell e.1 e.2.1 = none :=
    fun e _ => rfl
  have hvers : ∀ e ∈ (changesetOf T).cells, 1 ≤ e.2.2.2 := by
    intro e he
    obtain ⟨pk, col, v, ver⟩ := e
    exact versioned_get_cell hver ((changeset_cells_mem T hwf pk col v ver).1 he)
  have hins := mergeCells_insert_all pol now (changesetOf T).cells MemoryStorage.new
    MergeReport.init hnd habs hvers
  obtain ⟨rep, hrep⟩ := Option.isSome_iff_exists.1 hins.1
  have hm : merge MemoryStorage.new (changesetOf T) pol now =
      ((mergeCells MemoryStorage.new MergeReport.init pol now (changesetOf T).cells).1,
        some rep) := by
    unfold merge
    simp only [MemoryStorage.begin_transaction, MemoryStorage.commit_transaction]
    rw [hrep]
  refine ⟨?_, ?_⟩
  · rw [hm]
    rfl
  · intro pk col
    rw [hm]
    cases hT : T.get_cell pk col with
    | some c =>
      have hTc : T.get_cell pk col = some ⟨c.value, c.version⟩ := by
        rw [hT]
      have hmem := (changeset_cells_mem T hwf pk col c.value c.version).2 hTc
      have := hins.2.1 (pk, col, c.value, c.version) hmem
      rw [this]
    | none =>
      have hk : (pk, col) ∉ (changesetOf T).cells.map cellKey := by
        intro hh
        obtain ⟨e, he, hke⟩ := List.mem_map.1 hh
        obtain ⟨p, cl, v, ver⟩ := e
        have hpk : p = pk := congrArg Prod.fst hke
        have hcol : cl = col := congrArg Prod.snd hke
        subst hpk
        subst hcol
        have := (changeset_cells_mem T hwf p cl v ver).1 he
        rw [hT] at this
        cases this
      rw [hins.2.2 pk col hk]
      rfl

/-- C6 witness: the amended round-trip evaluated on a concrete two-row table. -/
theorem changeset_roundtrip_witness :
    WF exC6T ∧ Versioned exC6T ∧
    (merge MemoryStorage.new (changesetOf exC6T) .LexicographicMin 0).2.isSome = true ∧
    (merge MemoryStorage.new (changesetOf exC6T) .LexicographicMin 0).1.get_cell "r" "b" =
      exC6T.get_cell "r" "b" ∧
    (merge MemoryStorage.new (changesetOf exC6T) .LexicographicMin 0).1.get_cell "q" "a" =
      exC6T.get_cell "q" "a" :=
  ⟨by decide, by decide,
   (changeset_roundtrip exC6T .LexicographicMin 0 (by decide) (by decide)).1,
   (changeset_roundtrip exC6T .LexicographicMin 0 (by decide) (by decide)).2 "r" "b",
   (changeset_roundtrip exC6T .LexicographicMin 0 (by decide) (by decide)).2 "q" "a"⟩

/-! Claim C4: what a sync session actually transmits. -/

/-- C4 counterexample: peers A and B each hold ("r","c") at version 1 (with
different values); B advertises version 1 for that cell in the head exchange,
and A's version 1 does not strictly exceed it, yet the changeset A sends in
SyncSession::sync (its full table export — sync.rs never consults
HeadExchange) still contains the cell. -/
theorem sync_includes_non_newer_cells :
    headVersion exC4b "r" "c" = some 1 ∧
    ("r", "c", [65], 1) ∈ (changesetOf exC4a).cells ∧
    ¬ (1 : Nat) > 1 ∧
    (syncSession exC4a exC4b .LexicographicMin 0).isSome = true := by
  refine ⟨rfl, by decide, by decide, rfl⟩

/-- C4 (amended): the changeset a peer sends in SyncSession::sync is its full
changeset: it contains exactly the peer's live cells with their values and
versions, independent of the other peer's advertised heads (strictly-newer
filtering happens only cell-by-cell at merge time). -/
theorem sync_changeset_is_full_table (a : MemoryStorage) (hwf : WF a)
    (pk col : String) (v : Bytes) (ver : Nat) :
    ((pk, col, v, ver) ∈ (changesetOf a).cells ↔ a.get_cell pk col = some ⟨v, ver⟩) :=
  changeset_cells_mem a hwf pk col v ver

/-- C4 witness: the amended characterisation evaluated on a concrete peer. -/
theorem sync_changeset_is_full_table_witness :
    WF exC4a ∧
    (("r", "c", [65], 1) ∈ (changesetOf exC4a).cells ↔
      exC4a.get_cell "r" "c" = some ⟨[65], 1⟩) :=
  ⟨by decide, sync_changeset_is_full_table exC4a (by decide) "r" "c" [65] 1⟩

/-! Idempotence machinery: a processed cell is settled, and settled cells are
merged without writing. -/

theorem lt_of_resolve_accept {l r : Nat} (h : resolve_versions l r = .Accept) : l < r := by
  unfold resolve_versions at h
  by_cases h1 : l < r
  · exact h1
  · by_cases h2 : r < l
    · rw [if_neg h1, if_pos h2] at h
      cases h
    · rw [if_neg h1, if_neg h2] at h
      cases h

theorem lt_of_resolve_reject {l r : Nat} (h : resolve_versions l r = .Reject) : r < l := by
  unfold resolve_versions at h
  by_cases h1 : l < r
  · rw [if_pos h1] at h
    cases h
  · by_cases h2 : r < l
    · exact h2
    · rw [if_neg h1, if_neg h2] at h
      cases h

theorem eq_of_resolve_tie {l r : Nat} (h : resolve_versions l r = .Conflict) : l = r := by
  unfold resolve_versions at h
  by_cases h1 : l < r
  · rw [if_pos h1] at h
    cases h
  · by_cases h2 : r < l
    · rw [if_neg h1, if_pos h2] at h
      cases h
    · exact Nat.le_antisymm (Nat.not_lt.1 h2) (Nat.not_lt.1 h1)

theorem settled_congr {s s' : MemoryStorage} {pol : TieBreakPolicy}
    {e : String × String × Bytes × Nat}
    (h : s'.get_cell e.1 e.2.1 = s.get_cell e.1 e.2.1) (hs : settled s pol e) :
    settled s' pol e := by
  obtain ⟨c, hc, hd⟩ := hs
  exact ⟨c, by rw [h, hc], hd⟩

theorem mergeCell_settles {s s' : MemoryStorage} {rep rep' : MergeReport}
    {pk col : String} {v : Bytes} {vr : Nat} {pol : TieBreakPolicy} {now : Nat}
    (h : mergeCell s rep pk col v vr pol now = some (s', rep')) :
    settled s' pol (pk, col, v, vr) := by
  simp only [mergeCell] at h
  split at h
  · rename_i hdec
    have hacc : localVersionOf s pk col < vr := lt_of_resolve_accept hdec
    split at h <;>
    · cases h
      refine ⟨⟨v, vr⟩, ?_, Or.inr (Or.inl ⟨rfl, rfl⟩)⟩
      rw [MemoryStorage.get_cell_append_dag, MemoryStorage.get_cell_set_cell_self]
  · rename_i hdec
    have hrej : vr < localVersionOf s pk col := lt_of_resolve_reject hdec
    cases h
    cases hc : s.get_cell pk col with
    | none =>
      rw [localVersionOf_none hc] at hrej
      cases hrej
    | some c =>
      rw [localVersionOf_some hc] at hrej
      exact ⟨c, hc, Or.inl hrej⟩
  · rename_i hdec
    have htie : localVersionOf s pk col = vr := eq_of_resolve_tie hdec
    split at h
    · cases h
    · rename_i lc hlc
      rw [localVersionOf_some hlc] at htie
      split at h
      · rename_i hval
        cases h
        exact ⟨lc, hlc, Or.inr (Or.inl ⟨htie, hval⟩)⟩
      · rename_i hval
        split at h
        · cases h
          refine ⟨⟨v, vr + 1⟩, ?_, Or.inl (Nat.lt_succ_self vr)⟩
          rw [MemoryStorage.get_cell_append_dag, MemoryStorage.get_cell_set_cell_self]
        · rename_i hres
          cases h
          exact ⟨lc, hlc, Or.inr (Or.inr ⟨htie, Bool.eq_false_iff.2 hres⟩)⟩

theorem settled_mergeCell_noop {s : MemoryStorage} {pol : TieBreakPolicy}
    {pk col : String} {v : Bytes} {vr : Nat}
    (hs : settled s pol (pk, col, v, vr)) (rep : MergeReport) (now : Nat) :
    ∃ rep', mergeCell s rep pk col v vr pol now = some (s, rep') := by
  obtain ⟨c, hc, hd⟩ := hs
  rcases hd with hlt | ⟨hv, hval⟩ | ⟨hv, hres⟩
  · refine ⟨_, mergeCell_skip_older s rep pk col v vr pol now ?_⟩
    rw [localVersionOf_some hc]
    exact hlt
  · exact ⟨_, mergeCell_skip_equal s rep pk col v vr pol now c hc hv hval⟩
  · by_cases hval : c.value = v
    · exact ⟨_, mergeCell_skip_equal s rep pk col v vr pol now c hc hv hval⟩
    · have h := mergeCell_conflict s rep pk col v vr pol now c hc hv hval
      rw [hres] at h
      simp only [Bool.false_eq_true, if_neg, not_false_iff] at h
      exact ⟨_, h⟩

theorem mergeCells_frame (pol : TieBreakPolicy) (now : Nat) :
    ∀ (L : List (String × String × Bytes × Nat)) (s : MemoryStorage) (rep : MergeReport)
      (pk col : String), (pk, col) ∉ L.map cellKey →
      (mergeCells s rep pol now L).1.get_cell pk col = s.get_cell pk col := by
  intro L
  induction L with
  | nil =>
    intro s rep pk col _
    rfl
  | cons e0 L' ih =>
    intro s rep pk col hk
    obtain ⟨pk0, col0, v0, ver0⟩ := e0
    simp only [List.map_cons] at hk
    have hk1 : (pk, col) ∉ L'.map cellKey := fun hh => hk (List.mem_cons_of_mem _ hh)
    have hk0 : (pk, col) ≠ (pk0, col0) := by
      intro heq
      apply hk
      rw [heq]
      exact List.mem_cons_self _ _
    cases hmc : mergeCell s rep pk0 col0 v0 ver0 pol now with
    | none =>
      rw [show mergeCells s rep pol now ((pk0, col0, v0, ver0) :: L') = (s, none) by
        simp [mergeCells, hmc]]
    | some pr =>
      rw [show mergeCells s rep pol now ((pk0, col0, v0, ver0) :: L') =
          mergeCells pr.1 pr.2 pol now L' by simp [mergeCells, hmc]]
      rw [ih pr.1 pr.2 pk col hk1]
      exact mergeCell_frame_cell (by rw [hmc]) pk col hk0

theorem mergeCells_settles (pol : TieBreakPolicy) (now : Nat) :
    ∀ (L : List (String × String × Bytes × Nat)) (s : MemoryStorage) (rep : MergeReport)
      (s' : MemoryStorage) (rep' : MergeReport), keysNodup L →
      mergeCells s rep pol now L = (s', some rep') → ∀ e ∈ L, settled s' pol e := by
  intro L
  induction L with
  | nil =>
    intro s rep s' rep' _ _ e he
    cases he
  | cons e0 L' ih =>
    intro s rep s' rep' hnd heq e he
    obtain ⟨pk0, col0, v0, ver0⟩ := e0
    have hkey0 : (pk0, col0) ∉ L'.map cellKey := by
      have hx := hnd
      unfold keysNodup at hx
      simp only [List.map_cons] at hx
      exact (List.nodup_cons.1 hx).1
    have hnd' : keysNodup L' := by
      have hx := hnd
      unfold keysNodup at hx
      simp only [List.map_cons] at hx
      exact (List.nodup_cons.1 hx).2
    cases hmc : mergeCell s rep pk0 col0 v0 ver0 pol now with
    | none =>
      rw [show mergeCells s rep pol now ((pk0, col0, v0, ver0) :: L') = (s, none) by
        simp [mergeCells, hmc]] at heq
      have : (none : Option MergeReport) = some rep' := congrArg Prod.snd heq
      cases this
    | some pr =>
      rw [show mergeCells s rep pol now ((pk0, col0, v0, ver0) :: L') =
          mergeCells pr.1 pr.2 pol now L' by simp [mergeCells, hmc]] at heq
      rcases List.mem_cons.1 he with rfl | he'
      · have hset : settled pr.1 pol (pk0, col0, v0, ver0) :=
          mergeCell_settles (by rw [hmc])
        have hframe : s'.get_cell pk0 col0 = pr.1.get_cell pk0 col0 := by
          have := mergeCells_frame pol now L' pr.1 pr.2 pk0 col0 hkey0
          rw [heq] at this
          exact this
        exact settled_congr hframe hset
      · exact ih pr.1 pr.2 s' rep' hnd' heq e he'

theorem mergeCells_noop (pol : TieBreakPolicy) (now : Nat) :
    ∀ (L : List (String × String × Bytes × Nat)) (s : MemoryStorage) (rep : MergeReport),
      (∀ e ∈ L, settled s pol e) →
      ∃ rep', mergeCells s rep pol now L = (s, some rep') := by
  intro L
  induction L with
  | nil =>
    intro s rep _
    exact ⟨rep, rfl⟩
  | cons e0 L' ih =>
    intro s rep hs
    obtain ⟨pk0, col0, v0, ver0⟩ := e0
    obtain ⟨rep1, hmc⟩ :=
      settled_mergeCell_noop (hs _ (List.mem_cons_self _ _)) rep now
    obtain ⟨rep', hrest⟩ := ih s rep1 (fun e he => hs e (List.mem_cons_of_mem _ he))
    refine ⟨rep', ?_⟩
    rw [show mergeCells s rep pol now ((pk0, col0, v0, ver0) :: L') =
        mergeCells s rep1 pol now L' by simp [mergeCells, hmc]]
    exact hrest

theorem merge_eq_mergeCells (s : MemoryStorage) (cs : Changeset) (pol : TieBreakPolicy)
    (now : Nat) :
    merge s cs pol now = mergeCells s MergeReport.init pol now cs.cells := by
  unfold merge
  simp only [MemoryStorage.begin_transaction, MemoryStorage.commit_transaction]
  cases h : (mergeCells s MergeReport.init pol now cs.cells).2 with
  | none => rfl
  | some rep => exact Prod.ext_iff.2 ⟨rfl, h.symm⟩

/-! Claim C5: merge is idempotent on the table state. -/

/-- C5: for every starting table, changeset (HashMap-backed, so with
pairwise-distinct (pk, col) keys) and tiebreak policy, when merging the
changeset succeeds, merging it a second time (at any later wall-clock time)
succeeds and returns the storage — cells and DAG histories — structurally
unchanged: merging twice yields the same table as merging once. -/
theorem merge_idempotent (s : MemoryStorage) (cs : Changeset) (pol : TieBreakPolicy)
    (now now' : Nat) (hnd : keysNodup cs.cells)
    (hok : (merge s cs pol now).2.isSome = true) :
    (merge (merge s cs pol now).1 cs pol now').1 = (merge s cs pol now).1 ∧
    (merge (merge s cs pol now).1 cs pol now').2.isSome = true := by
  obtain ⟨rep, hrep⟩ := Option.isSome_iff_exists.1 hok
  rw [merge_eq_mergeCells] at hrep
  have heq : mergeCells s MergeReport.init pol now cs.cells =
      ((mergeCells s MergeReport.init pol now cs.cells).1, some rep) :=
    Prod.ext_iff.2 ⟨rfl, hrep⟩
  have hsettled := mergeCells_settles pol now cs.cells s MergeReport.init
    (mergeCells s MergeReport.init pol now cs.cells).1 rep hnd heq
  obtain ⟨rep', hnoop⟩ := mergeCells_noop pol now' cs.cells
    (mergeCells s MergeReport.init pol now cs.cells).1 MergeReport.init hsettled
  have hfst : (merge s cs pol now).1 = (mergeCells s MergeReport.init pol now cs.cells).1 := by
    rw [merge_eq_mergeCells]
  rw [hfst, merge_eq_mergeCells, hnoop]
  exact ⟨rfl, rfl⟩

/-- C5 witness: idempotence evaluated on a concrete table and changeset that
exercise a conflict-accept (LexicographicMin) and an insert. -/
theorem merge_idempotent_witness :
    keysNodup exC5cs.cells ∧
    (merge exC5s exC5cs .LexicographicMin 5).2.isSome = true ∧
    (merge (merge exC5s exC5cs .LexicographicMin 5).1 exC5cs .LexicographicMin 9).1 =
      (merge exC5s exC5cs .LexicographicMin 5).1 :=
  ⟨by decide, by decide,
   (merge_idempotent exC5s exC5cs .LexicographicMin 5 9 (by decide) (by decide)).1⟩

/-! Claim C7 machinery: Table::gc touches only DAG histories, and per column
keeps exactly the newest keep_n nodes. -/

theorem mem_of_getLast?_eq {α : Type} : ∀ (l : List α) {x : α}, l.getLast? = some x → x ∈ l
  | [], _, h => by cases h
  | [a], x, h => by
    rw [List.getLast?_singleton] at h
    cases h
    exact List.mem_cons_self a []
  | a :: b :: t, x, h => by
    rw [List.getLast?_cons_cons] at h
    exact List.mem_cons_of_mem a (mem_of_getLast?_eq (b :: t) h)

theorem getLast?_mem_drop {α : Type} : ∀ (m : Nat) (l : List α) {x : α},
    l.getLast? = some x → m < l.length → x ∈ l.drop m
  | 0, l, _, h, _ => by simpa using mem_of_getLast?_eq l h
  | _ + 1, [], _, h, _ => by cases h
  | m + 1, [a], _, _, hm => by
    exfalso
    simp at hm
  | m + 1, a :: b :: t, x, h, hm => by
    rw [List.getLast?_cons_cons] at h
    have hm' : m < (b :: t).length := Nat.lt_of_succ_lt_succ hm
    simpa using getLast?_mem_drop m (b :: t) h hm'

theorem gcRow_get_cell (pk : String) (keep : Nat) :
    ∀ (cells : List (String × Cell)) (acc : MemoryStorage × Nat) (pk' col' : String),
      (gcRow pk keep cells acc).1.get_cell pk' col' = acc.1.get_cell pk' col' := by
  intro cells
  induction cells with
  | nil =>
    intro acc pk' col'
    rfl
  | cons ce rest ih =>
    intro acc pk' col'
    show (gcRow pk keep rest _).1.get_cell pk' col' = _
    rw [ih, MemoryStorage.gc_dag_get_cell]

theorem gcRow_get_row (pk : String) (keep : Nat) :
    ∀ (cells : List (String × Cell)) (acc : MemoryStorage × Nat) (pk' : String),
      (gcRow pk keep cells acc).1.get_row pk' = acc.1.get_row pk' := by
  intro cells
  induction cells with
  | nil =>
    intro acc pk'
    rfl
  | cons ce rest ih =>
    intro acc pk'
    show (gcRow pk keep rest _).1.get_row pk' = _
    rw [ih, MemoryStorage.gc_dag_get_row]

theorem gcRow_hist_ne (pk : String) (keep : Nat) :
    ∀ (cells : List (String × Cell)) (acc : MemoryStorage × Nat) (pk' col' : String),
      (pk' ≠ pk ∨ col' ∉ cells.map Prod.fst) →
      (gcRow pk keep cells acc).1.get_dag_history pk' col' =
        acc.1.get_dag_history pk' col' := by
  intro cells
  induction cells with
  | nil =>
    intro acc pk' col' _
    rfl
  | cons ce rest ih =>
    intro acc pk' col' h
    have hk : (pk', col') ≠ (pk, ce.1) := by
      intro heq
      rcases h with h | h
      · exact h (congrArg Prod.fst heq)
      · apply h
        rw [show col' = ce.1 from congrArg Prod.snd heq]
        exact List.mem_map.2 ⟨ce, List.mem_cons_self _ _, rfl⟩
    have h' : pk' ≠ pk ∨ col' ∉ rest.map Prod.fst := by
      rcases h with h | h
      · exact Or.inl h
      · exact Or.inr (fun hh => h (List.mem_cons_of_mem _ hh))
    show (gcRow pk keep rest _).1.get_dag_history pk' col' = _
    rw [ih _ pk' col' h', MemoryStorage.gc_dag_hist_ne _ _ _ _ _ _ hk]

theorem gcRow_hist_self (pk : String) (keep : Nat) :
    ∀ (cells : List (String × Cell)) (acc : MemoryStorage × Nat) (col : String),
      (cells.map Prod.fst).Nodup → col ∈ cells.map Prod.fst →
      (gcRow pk keep cells acc).1.get_dag_history pk col =
        (acc.1.get_dag_history pk col).drop
          ((acc.1.get_dag_history pk col).length - keep) := by
  intro cells
  induction cells with
  | nil =>
    intro acc col _ hmem
    cases hmem
  | cons ce rest ih =>
    intro acc col hnd hmem
    by_cases hcol : ce.1 = col
    · have hnotin : col ∉ rest.map Prod.fst := by
        rw [← hcol]
        exact (List.nodup_cons.1 (by simpa using hnd)).1
      show (gcRow pk keep rest _).1.get_dag_history pk col = _
      rw [gcRow_hist_ne pk keep rest _ pk col (Or.inr hnotin), hcol,
        MemoryStorage.gc_dag_hist_self]
    · have hmem' : col ∈ rest.map Prod.fst := by
        rw [List.map_cons] at hmem
        rcases List.mem_cons.1 hmem with h | h
        · exact absurd h.symm hcol
        · exact h
      show (gcRow pk keep rest _).1.get_dag_history pk col = _
      rw [ih _ col (List.nodup_cons.1 (by simpa using hnd)).2 hmem',
        MemoryStorage.gc_dag_hist_ne _ _ _ _ _ _ (by
          intro heq
          exact hcol (congrArg Prod.snd heq).symm)]

theorem gcPks_get_cell (keep : Nat) :
    ∀ (pks : List String) (acc : MemoryStorage × Nat) (pk' col' : String),
      (gcPks keep pks acc).1.get_cell pk' col' = acc.1.get_cell pk' col' := by
  intro pks
  induction pks with
  | nil =>
    intro acc pk' col'
    rfl
  | cons pk0 rest ih =>
    intro acc pk' col'
    show (gcPks keep rest _).1.get_cell pk' col' = _
    rw [ih]
    cases hrow : acc.1.get_row pk0 with
    | none => simp [hrow]
    | some cells => simp [hrow, gcRow_get_cell]

theorem gcPks_get_row (keep : Nat) :
    ∀ (pks : List String) (acc : MemoryStorage × Nat) (pk' : String),
      (gcPks keep pks acc).1.get_row pk' = acc.1.get_row pk' := by
  intro pks
  induction pks with
  | nil =>
    intro acc pk'
    rfl
  | cons pk0 rest ih =>
    intro acc pk'
    show (gcPks keep rest _).1.get_row pk' = _
    rw [ih]
    cases hrow : acc.1.get_row pk0 with
    | none => simp [hrow]
    | some cells => simp [hrow, gcRow_get_row]

theorem gcPks_hist_ne (keep : Nat) :
    ∀ (pks : List String) (acc : MemoryStorage × Nat) (pk col : String), pk ∉ pks →
      (gcPks keep pks acc).1.get_dag_history pk col = acc.1.get_dag_history pk col := by
  intro pks
  induction pks with
  | nil =>
    intro acc pk col _
    rfl
  | cons pk0 rest ih =>
    intro acc pk col hpk
    have hne : pk ≠ pk0 := fun heq => hpk (heq ▸ List.mem_cons_self _ _)
    have hrest : pk ∉ rest := fun hh => hpk (List.mem_cons_of_mem _ hh)
    show (gcPks keep rest _).1.get_dag_history pk col = _
    rw [ih _ pk col hrest]
    cases hrow : acc.1.get_row pk0 with
    | none => simp [hrow]
    | some cells => simp [hrow, gcRow_hist_ne pk0 keep cells acc pk col (Or.inl hne)]

theorem gcPks_hist (keep : Nat) :
    ∀ (pks : List String) (acc : MemoryStorage × Nat) (pk col : String)
      (cells : List (String × Cell)), pks.Nodup → pk ∈ pks →
      acc.1.get_row pk = some cells → (cells.map Prod.fst).Nodup →
      col ∈ cells.map Prod.fst →
      (gcPks keep pks acc).1.get_dag_history pk col =
        (acc.1.get_dag_history pk col).drop
          ((acc.1.get_dag_history pk col).length - keep) := by
  intro pks
  induction pks with
  | nil =>
    intro acc pk col cells _ hpk _ _ _
    cases hpk
  | cons pk0 rest ih =>
    intro acc pk col cells hnd hpk hrow hcnd hcol
    rcases List.mem_cons.1 hpk with rfl | hpk'
    · have hrest : pk ∉ rest := (List.nodup_cons.1 hnd).1
      show (gcPks keep rest _).1.get_dag_history pk col = _
      rw [gcPks_hist_ne keep rest _ pk col hrest]
      rw [hrow]
      exact gcRow_hist_self pk keep cells acc col hcnd hcol
    · have hne : pk0 ≠ pk := by
        intro heq
        exact (List.nodup_cons.1 hnd).1 (heq ▸ hpk')
      show (gcPks keep rest _).1.get_dag_history pk col = _
      cases hrow0 : acc.1.get_row pk0 with
      | none =>
        simp only [hrow0]
        exact ih acc pk col cells (List.nodup_cons.1 hnd).2 hpk' hrow hcnd hcol
      | some cells0 =>
        simp only [hrow0]
        have hrow' : (gcRow pk0 keep cells0 acc).1.get_row pk = some cells := by
          rw [gcRow_get_row]
          exact hrow
        have hhist : (gcRow pk0 keep cells0 acc).1.get_dag_history pk col =
            acc.1.get_dag_history pk col :=
          gcRow_hist_ne pk0 keep cells0 acc pk col (Or.inl (fun h => hne h.symm))
        rw [ih (gcRow pk0 keep cells0 acc) pk col cells (List.nodup_cons.1 hnd).2 hpk'
          hrow' hcnd hcol, hhist]

/-- C7: for every (pk, col) with a live cell and every keep_n ≥ 1, Table::gc
changes no cells — in particular the current cell's value and version are
unchanged — and the column's DAG history becomes exactly its newest keep_n
nodes (its suffix; unchanged when it was already short enough); given the
write invariant that the newest DAG node backs the current cell, a node with
the current cell's version remains in the history. -/
theorem gc_preserves_head (s : MemoryStorage) (pk col : String) (c : Cell)
    (keep : Nat) (n : DagNode) (hwf : WF s) (hc : s.get_cell pk col = some c)
    (hlast : (s.get_dag_history pk col).getLast? = some n) (hn : n.version = c.version)
    (hk : 1 ≤ keep) :
    (∀ pk' col', (tableGc s keep).1.get_cell pk' col' = s.get_cell pk' col') ∧
    (tableGc s keep).1.get_dag_history pk col =
      (s.get_dag_history pk col).drop ((s.get_dag_history pk col).length - keep) ∧
    ∃ m ∈ (tableGc s keep).1.get_dag_history pk col, m.version = c.version := by
  obtain ⟨rd, halr, halc, hrow⟩ := get_row_of_cell hc
  have hcells_nd : (rd.cells.map Prod.fst).Nodup := wf_cells_nodup hwf halr
  have hcol : col ∈ rd.cells.map Prod.fst :=
    List.mem_map.2 ⟨(col, c), alGet_eq_some_mem halc, rfl⟩
  have hpks_nd : s.all_pks.Nodup := sortPks_nodup hwf.1
  have hpk : pk ∈ s.all_pks := by
    unfold MemoryStorage.all_pks
    exact mem_sortPks.2 (mem_keys_of_alGet halr)
  have hhist : (tableGc s keep).1.get_dag_history pk col =
      (s.get_dag_history pk col).drop ((s.get_dag_history pk col).length - keep) :=
    gcPks_hist keep s.all_pks (s, 0) pk col rd.cells hpks_nd hpk hrow hcells_nd hcol
  refine ⟨fun pk' col' => gcPks_get_cell keep s.all_pks (s, 0) pk' col', hhist, ?_⟩
  refine ⟨n, ?_, hn⟩
  rw [hhist]
  have hlen : 0 < (s.get_dag_history pk col).length := by
    cases hh : s.get_dag_history pk col with
    | nil =>
      rw [hh] at hlast
      cases hlast
    | cons a t => simp [hh]
  exact getLast?_mem_drop _ _ hlast (Nat.sub_lt hlen hk)

/-- C7 witness: gc(2) on a column with a three-node history keeps the newest
two nodes and the backing node of the current cell ("r","c") = ([3], 3). -/
theorem gc_preserves_head_witness :
    WF exC7s ∧ exC7s.get_cell "r" "c" = some ⟨[3], 3⟩ ∧
    (exC7s.get_dag_history "r" "c").getLast? = some ⟨3, [3], some 2, none, 0, false⟩ ∧
    (tableGc exC7s 2).1.get_cell "r" "c" = exC7s.get_cell "r" "c" ∧
    (tableGc exC7s 2).1.get_dag_history "r" "c" =
      (exC7s.get_dag_history "r" "c").drop ((exC7s.get_dag_history "r" "c").length - 2) ∧
    ∃ m ∈ (tableGc exC7s 2).1.get_dag_history "r" "c", m.version = (3 : Nat) :=
  ⟨by decide, by decide, by decide,
   (gc_preserves_head exC7s "r" "c" ⟨[3], 3⟩ 2 ⟨3, [3], some 2, none, 0, false⟩
     (by decide) (by decide) (by decide) rfl (by decide)).1 "r" "c",
   (gc_preserves_head exC7s "r" "c" ⟨[3], 3⟩ 2 ⟨3, [3], some 2, none, 0, false⟩
     (by decide) (by decide) (by decide) rfl (by decide)).2.1,
   (gc_preserves_head exC7s "r" "c" ⟨[3], 3⟩ 2 ⟨3, [3], some 2, none, 0, false⟩
     (by decide) (by decide) (by decide) rfl (by decide)).2.2⟩

end DagCrr
